import Mathlib

/-!
# lab0-c `queue.c`: a shallow embedding

The queue of `queue.c` is an intrusive circular doubly-linked list.  The
embedding keeps the pointer structure: a heap maps node addresses to their
`next` and `prev` fields, and every function of `queue.c` is transcribed
statement by statement as a function on heaps.

Conventions.
* A pointer is a natural number, `0` is `NULL`.
* An `element_t` is identified with the address of its embedded `list` node
  (`list_entry` / `container_of` is the identity on addresses); its payload
  `value` is kept in the heap's `value` map.  C `char` is `Char`, a C string is
  the `String` of its characters before the terminator, `strlen` is `length`,
  and `strcmp(a, b) == 0` is `a = b`.
* Loops carry a fuel argument; running out of fuel is the fault `Fault.fuel`.
* Undefined behaviour that the code can reach (dereferencing `NULL`, reading
  the payload of something that is not an element or a payload that has no
  terminator, overrunning a buffer, overflowing a signed `int`) is a fault.
* The output buffer `sp` of `q_remove_head` / `q_remove_tail` has room for
  `bufsize` characters.  `memcpy` stores `strlen + 1` characters through it
  whatever `bufsize` is; when they do not fit the call is the fault
  `Fault.overrun`, which carries the characters stored.
* `malloc` is a parameter: each call that allocates receives the allocator's
  answers, and theorems assume an answer is `NULL` or a block not in use.
* `int` is 32 bits wide: `int len = strlen(s) + 1` of `gen_element` is reduced
  modulo `2^32`, and the counter of `q_size` faults when it would pass
  `2^31 - 1`.
-/

namespace LabQueue

/-- A machine address; `0` is `NULL`. -/
abbrev Ptr := Nat

/-- Ways in which an embedded run can fail to produce a result: the loop
fuel ran out; `NULL` was dereferenced; a payload was read where there is no
terminated string; the scratch buffer of `q_delete_dup` was overrun; the output
buffer of `q_remove_head` was overrun by the characters `stored`; an `int`
overflowed. -/
inductive Fault where
  | fuel
  | nullDeref
  | badRead
  | overflow
  | overrun (stored : List Char)
  | intOverflow
  deriving DecidableEq

/-- The memory seen by `queue.c`: the two link fields of every `struct list_head`,
the payload owned by the `element_t` at an address (`none`: no element there,
or its payload buffer holds no terminated string), and the blocks currently
handed out by `malloc`. -/
structure Heap where
  next : Ptr → Ptr
  prev : Ptr → Ptr
  value : Ptr → Option String
  live : Ptr → Bool

/-- Store `p->next = v`. -/
def Heap.setNext (h : Heap) (p v : Ptr) : Heap :=
  { h with next := fun q => if q = p then v else h.next q }

/-- Store `p->prev = v`. -/
def Heap.setPrev (h : Heap) (p v : Ptr) : Heap :=
  { h with prev := fun q => if q = p then v else h.prev q }

/-- Store the payload of the element at `p`. -/
def Heap.setValue (h : Heap) (p : Ptr) (v : Option String) : Heap :=
  { h with value := fun q => if q = p then v else h.value q }

/-- Mark the block at `p` as handed out (`true`) or returned (`false`). -/
def Heap.setLive (h : Heap) (p : Ptr) (b : Bool) : Heap :=
  { h with live := fun q => if q = p then b else h.live q }

/-! ## The list primitives of `list.h` -/

/-- Modelled from the spec: `INIT_LIST_HEAD` of `list.h` (not under `src/`),
spec 4.1 `init(node)`: a self-referencing sentinel. -/
def INIT_LIST_HEAD (h : Heap) (head : Ptr) : Heap :=
  (h.setNext head head).setPrev head head

/-- Modelled from the spec: `list_add` of `list.h` (not under `src/`),
spec 4.1 `link_after(new, ref)`: `node` becomes the successor of `head`. -/
def list_add (h : Heap) (node head : Ptr) : Heap :=
  let next := h.next head
  let h1 := h.setPrev next node
  let h2 := h1.setNext node next
  let h3 := h2.setPrev node head
  h3.setNext head node

/-- Modelled from the spec: `list_add_tail` of `list.h` (not under `src/`),
spec 4.1 `link_before(new, ref)`: `node` becomes the predecessor of `head`. -/
def list_add_tail (h : Heap) (node head : Ptr) : Heap :=
  let prev := h.prev head
  let h1 := h.setNext prev node
  let h2 := h1.setNext node head
  let h3 := h2.setPrev node prev
  h3.setPrev head node

/-- Modelled from the spec: `list_del` of `list.h` (not under `src/`),
spec 4.1 `unlink(node)`: the neighbours of `node` are linked to each other. -/
def list_del (h : Heap) (node : Ptr) : Heap :=
  let next := h.next node
  let prev := h.prev node
  let h1 := h.setPrev next prev
  h1.setNext prev next

/-- Modelled from the spec: `list_del_init` of `list.h` (not under `src/`):
`unlink(node)` followed by `init(node)`. -/
def list_del_init (h : Heap) (node : Ptr) : Heap :=
  INIT_LIST_HEAD (list_del h node) node

/-- Modelled from the spec: `list_empty` of `list.h` (not under `src/`),
spec 4.1 `is_empty(header)`: the header's forward link points to itself. -/
def list_empty (h : Heap) (head : Ptr) : Bool :=
  decide (h.next head = head)

/-- Modelled from the spec: `list_is_singular` of `list.h` (not under `src/`),
spec 4.1 `is_singular(header)`: exactly one non-header node. -/
def list_is_singular (h : Heap) (head : Ptr) : Bool :=
  !list_empty h head && decide (h.prev head = h.next head)

/-! ## `queue.c` -/

/-- The C function `q_new`: `m` is what `malloc` returned (`none` for `NULL`). -/
def q_new (h : Heap) (m : Option Ptr) : Heap × Ptr :=
  match m with
  | none => (h, 0)
  | some head => (INIT_LIST_HEAD (h.setLive head true) head, head)

/-- The value of `int len = strlen(s) + 1` in `gen_element`, as the 32-bit
pattern of the `int`: `strlen(s) + 1` reduced modulo `2^32`.  The `int` is
negative when the pattern is `2^31` or more. -/
def gen_len (s : String) : Nat :=
  (s.length + 1) % 4294967296

/-- The C function `gen_element`: `m` is what the first `malloc` returned, `mv` tells whether
the second one, `malloc(sizeof(char) * len)`, succeeded.  A negative `len` asks
for more than `2^63` bytes, which no allocator grants, so the second `malloc`
then fails whatever `mv` says.  `memcpy(e->value, s, len)` copies the whole
string with its terminator when `len` is `strlen(s) + 1`; otherwise `len` has
wrapped and the copy is cut off before the terminator, so that the payload
buffer holds no terminated string. -/
def gen_element (h : Heap) (s : String) (m : Option Ptr) (mv : Bool) : Heap × Ptr :=
  match m with
  | none => (h, 0)
  | some e =>
    let h1 := h.setLive e true
    let len := gen_len s
    if mv = false ∨ 2147483648 ≤ len then (h1.setLive e false, 0)
    else
      let h2 := h1.setValue e (if len = s.length + 1 then some s else none)
      (INIT_LIST_HEAD h2 e, e)

/-- The C function `q_insert_head`; `s = none` is a `NULL` string. -/
def q_insert_head (h : Heap) (head : Ptr) (s : Option String) (m : Option Ptr) (mv : Bool) :
    Heap × Bool :=
  match s with
  | none => (h, false)
  | some str =>
    if head = 0 then (h, false)
    else
      let r := gen_element h str m mv
      if r.2 = 0 then (r.1, false)
      else (list_add r.1 r.2 head, true)

/-- The C function `q_insert_tail`; `s = none` is a `NULL` string. -/
def q_insert_tail (h : Heap) (head : Ptr) (s : Option String) (m : Option Ptr) (mv : Bool) :
    Heap × Bool :=
  match s with
  | none => (h, false)
  | some str =>
    if head = 0 then (h, false)
    else
      let r := gen_element h str m mv
      if r.2 = 0 then (r.1, false)
      else (list_add_tail r.1 r.2 head, true)

/-- What a `q_remove_*` call leaves behind: the heap, the returned `element_t *`
(`0` for `NULL`), and the characters `memcpy` stored through `sp`, in order
from `sp[0]` (`none` when nothing was copied). -/
structure Removed where
  heap : Heap
  elem : Ptr
  copied : Option (List Char)

/-- The C function `q_remove_head`; `sp` tells whether the output buffer is non-`NULL`, and
the buffer has room for `bufsize` characters.  `memcpy` copies
`strlen(e->value) + 1` characters whatever `bufsize` is: when that is more
than `bufsize` the buffer is overrun, which is the fault `Fault.overrun` with
the characters stored. -/
def q_remove_head (h : Heap) (head : Ptr) (sp : Bool) (bufsize : Nat) : Except Fault Removed :=
  if head = 0 ∨ list_empty h head = true then .ok ⟨h, 0, none⟩
  else
    let e := h.next head
    let h1 := list_del_init h (h.next head)
    if sp = true then
      match h1.value e with
      | none => .error .badRead
      | some v =>
        if v.length + 1 ≤ bufsize then .ok ⟨h1, e, some (v.data ++ [Char.ofNat 0])⟩
        else .error (.overrun (v.data ++ [Char.ofNat 0]))
    else .ok ⟨h1, e, none⟩

/-- The C function `q_remove_tail`: `head->prev->prev` is evaluated before the call, so a
`NULL` queue is dereferenced. -/
def q_remove_tail (h : Heap) (head : Ptr) (sp : Bool) (bufsize : Nat) : Except Fault Removed :=
  if head = 0 then .error .nullDeref
  else q_remove_head h (h.prev (h.prev head)) sp bufsize

/-- The C function `q_release_element`: frees the payload and the element.  Reading `e->value`
of something that is not a live element is a fault. -/
def q_release_element (h : Heap) (e : Ptr) : Except Fault Heap :=
  match h.value e with
  | none => .error .badRead
  | some _ => .ok ((h.setValue e none).setLive e false)

/-- The `list_for_each` loop of `q_size`.  The counter is an `int`: `++count`
at `2^31 - 1` overflows, which is the fault `Fault.intOverflow`. -/
def q_size_loop (h : Heap) (head : Ptr) : Nat → Ptr → Nat → Except Fault Nat
  | 0, _, _ => .error .fuel
  | fuel + 1, node, count =>
    if node = head then .ok count
    else if count + 1 < 2147483648 then q_size_loop h head fuel (h.next node) (count + 1)
    else .error .intOverflow

/-- The C function `q_size`. -/
def q_size (fuel : Nat) (h : Heap) (head : Ptr) : Except Fault Nat :=
  if head = 0 ∨ list_empty h head = true then .ok 0
  else q_size_loop h head fuel (h.next head) 0

/-- The `for` loop of `q_delete_mid`.  `indir` points to the `next` field of a
node and is represented by that node, so `*indir` is `h.next indir`. -/
def q_delete_mid_loop (h : Heap) (head : Ptr) : Nat → Ptr → Ptr → Except Fault Ptr
  | 0, _, _ => .error .fuel
  | fuel + 1, indir, fast =>
    if fast ≠ head ∧ h.next fast ≠ head then
      q_delete_mid_loop h head fuel (h.next indir) (h.next (h.next fast))
    else .ok indir

/-- The C function `q_delete_mid`. -/
def q_delete_mid (fuel : Nat) (h : Heap) (head : Ptr) : Except Fault (Heap × Bool) :=
  if head = 0 ∨ list_empty h head = true then .ok (h, false)
  else
    match q_delete_mid_loop h head fuel head (h.next head) with
    | .error f => .error f
    | .ok indir =>
      let del_node := h.next indir
      let h1 := list_del_init h del_node
      match q_release_element h1 del_node with
      | .error f => .error f
      | .ok h2 => .ok (h2, true)

/-- The `list_for_each_entry_safe` loop of `q_delete_dup`.  `str` is the
content of the 1024-byte scratch buffer (`none`: `malloc` returned `NULL`). -/
def q_delete_dup_loop (head : Ptr) :
    Nat → Heap → Option String → Ptr → Ptr → Except Fault Heap
  | 0, _, _, _, _ => .error .fuel
  | fuel + 1, h, str, node, next =>
    if node = head then .ok h
    else
      match str, h.value node with
      | none, _ => .error .nullDeref
      | some _, none => .error .badRead
      | some s, some v =>
        if s = v then
          match q_release_element (list_del_init h node) node with
          | .error f => .error f
          | .ok h2 =>
            match h2.value next with
            | none => .error .badRead
            | some w =>
              if s ≠ w then
                let first_dup := h2.prev next
                match q_release_element (list_del_init h2 first_dup) first_dup with
                | .error f => .error f
                | .ok h4 => q_delete_dup_loop head fuel h4 (some s) next (h4.next next)
              else q_delete_dup_loop head fuel h2 (some s) next (h2.next next)
        else if 1024 < v.length + 1 then .error .overflow
        else q_delete_dup_loop head fuel h (some v) next (h.next next)

/-- The C function `q_delete_dup`; `str0` is the initial state of the `malloc`ed scratch
buffer: `none` if `malloc` failed, else its (uninitialised) content. -/
def q_delete_dup (fuel : Nat) (h : Heap) (head : Ptr) (str0 : Option String) :
    Except Fault (Heap × Bool) :=
  if head = 0 then .ok (h, false)
  else
    match q_delete_dup_loop head fuel h str0 (h.next head) (h.next (h.next head)) with
    | .error f => .error f
    | .ok h1 => .ok (h1, true)

/-- The six pointer stores in the body of the `for` loop of `q_swap`, after
`safe = safe->next`; `safe1` is that new value of `safe`. -/
def q_swap_body (h : Heap) (node safe1 : Ptr) : Heap :=
  let h1 := h.setNext (h.prev node) (h.next node)
  let h2 := h1.setPrev (h1.next node) (h1.prev node)
  let h3 := h2.setPrev node (h2.next node)
  let h4 := h3.setNext (h3.next node) node
  let h5 := h4.setPrev safe1 node
  h5.setNext node safe1

/-- The `for` loop of `q_swap`. -/
def q_swap_loop (head : Ptr) : Nat → Heap → Ptr → Ptr → Except Fault Heap
  | 0, _, _, _ => .error .fuel
  | fuel + 1, h, node, safe =>
    if node ≠ head ∧ safe ≠ head then
      let safe1 := h.next safe
      let h6 := q_swap_body h node safe1
      q_swap_loop head fuel h6 safe1 (h6.next safe1)
    else .ok h

/-- The C function `q_swap`. -/
def q_swap (fuel : Nat) (h : Heap) (head : Ptr) : Except Fault Heap :=
  if head = 0 ∨ list_empty h head = true ∨ list_is_singular h head = true then .ok h
  else q_swap_loop head fuel h (h.next head) (h.next (h.next head))

/-- The `list_for_each_safe` loop of `q_reverse`; returns the heap and the
final values of `node` and `next`. -/
def q_reverse_loop (head : Ptr) : Nat → Heap → Ptr → Ptr → Except Fault (Heap × Ptr × Ptr)
  | 0, _, _, _ => .error .fuel
  | fuel + 1, h, node, next =>
    if node = head then .ok (h, node, next)
    else
      let h1 := h.setNext node (h.prev node)
      let h2 := h1.setPrev node next
      q_reverse_loop head fuel h2 next (h2.next next)

/-- The C function `q_reverse`. -/
def q_reverse (fuel : Nat) (h : Heap) (head : Ptr) : Except Fault Heap :=
  if head = 0 ∨ list_empty h head = true then .ok h
  else
    match q_reverse_loop head fuel h (h.next head) (h.next (h.next head)) with
    | .error f => .error f
    | .ok (h1, node, next) =>
      let h2 := h1.setNext node (h1.prev node)
      .ok (h2.setPrev node next)

/-- The C function `q_sort`: the body is empty. -/
def q_sort (h : Heap) (_head : Ptr) : Heap := h

/-! ## Well-formed queues -/

/-- The nodes `a, xs, z` are consecutive: each one's `next` is the following
node and each one's `prev` is the preceding node. -/
def Linked (h : Heap) : Ptr → List Ptr → Ptr → Prop
  | a, [], z => h.next a = z ∧ h.prev z = a
  | a, x :: xs, z => (h.next a = x ∧ h.prev x = a) ∧ Linked h x xs z

/-- A well-formed queue: the header `head` is a live, non-null bare list
node, the forward traversal from `head` visits exactly the pairwise distinct
non-null nodes `xs` and returns to `head`, every `prev` link mirrors the `next`
link, and every node of `xs` is a live element owning a payload. -/
def IsQueue (h : Heap) (head : Ptr) (xs : List Ptr) : Prop :=
  head ≠ 0 ∧ (head :: xs).Nodup ∧ 0 ∉ xs ∧ Linked h head xs head ∧
    h.live head = true ∧ h.value head = none ∧
    ∀ x ∈ xs, h.live x = true ∧ (h.value x).isSome = true

/-- The link part of a well-formed queue: the header `head` is a live,
non-null node, the forward traversal from `head` visits exactly the pairwise
distinct non-null live nodes `xs` and returns to `head`, and every `prev` link
mirrors the `next` link.  Nothing is said about payloads. -/
def IsList (h : Heap) (head : Ptr) (xs : List Ptr) : Prop :=
  head ≠ 0 ∧ (head :: xs).Nodup ∧ 0 ∉ xs ∧ Linked h head xs head ∧
    h.live head = true ∧ ∀ x ∈ xs, h.live x = true

/-- The element at `x` has a payload string that, with its terminator, fits a
buffer of `bufsize` characters. -/
def PayloadFits (h : Heap) (x : Ptr) (bufsize : Nat) : Prop :=
  match h.value x with
  | some v => v.length + 1 ≤ bufsize
  | none => False

/-- The circularity invariant on the nodes `ns`:
`n.next.prev == n` and `n.prev.next == n`. -/
def Circular (h : Heap) (ns : List Ptr) : Prop :=
  ∀ n ∈ ns, h.prev (h.next n) = n ∧ h.next (h.prev n) = n

/-- The payloads of the nodes `xs`, in order. -/
def payloads (h : Heap) (xs : List Ptr) : List (Option String) :=
  xs.map h.value

instance Linked.instDecLinked (h : Heap) : ∀ (a : Ptr) (xs : List Ptr) (z : Ptr),
    Decidable (Linked h a xs z)
  | a, [], z => by unfold Linked; exact inferInstance
  | a, x :: xs, z => by
    unfold Linked
    have := Linked.instDecLinked h x xs z
    exact inferInstance

instance IsQueue.instDecIsQueue (h : Heap) (head : Ptr) (xs : List Ptr) :
    Decidable (IsQueue h head xs) := by
  unfold IsQueue; exact inferInstance

instance IsList.instDecIsList (h : Heap) (head : Ptr) (xs : List Ptr) :
    Decidable (IsList h head xs) := by
  unfold IsList; exact inferInstance

instance PayloadFits.instDecPayloadFits (h : Heap) (x : Ptr) (bufsize : Nat) :
    Decidable (PayloadFits h x bufsize) := by
  unfold PayloadFits
  cases h.value x with
  | none => exact inferInstance
  | some v => exact inferInstance

instance Circular.instDecCircular (h : Heap) (ns : List Ptr) : Decidable (Circular h ns) := by
  unfold Circular; exact inferInstance

/-- A heap in which nothing has been allocated. -/
def Heap.empty : Heap :=
  { next := fun _ => 0, prev := fun _ => 0, value := fun _ => none, live := fun _ => false }

/-! ## Sequences of insert and remove calls -/

/-- One call of the insert/remove interface on a fixed queue.  An insert
carries the string argument (`none`: `NULL`) and the answers of the two
`malloc` calls of `gen_element`; a remove carries whether an output buffer is
passed and the `bufsize` argument. -/
inductive Call where
  | insert_head (s : Option String) (m : Option Ptr) (mv : Bool)
  | insert_tail (s : Option String) (m : Option Ptr) (mv : Bool)
  | remove_head (sp : Bool) (bufsize : Nat)
  | remove_tail (sp : Bool) (bufsize : Nat)

/-- The heap after one call. -/
def Call.run (h : Heap) (head : Ptr) : Call → Except Fault Heap
  | .insert_head s m mv => .ok (q_insert_head h head s m mv).1
  | .insert_tail s m mv => .ok (q_insert_tail h head s m mv).1
  | .remove_head sp bufsize =>
    match q_remove_head h head sp bufsize with
    | .ok r => .ok r.heap
    | .error f => .error f
  | .remove_tail sp bufsize =>
    match q_remove_tail h head sp bufsize with
    | .ok r => .ok r.heap
    | .error f => .error f

/-- The allocator's answer is `NULL` or a non-null block that is not in use. -/
def FreshIn (h : Heap) : Option Ptr → Prop
  | none => True
  | some e => e ≠ 0 ∧ h.live e = false

/-- What a call may rely on: for an insert, the allocator behaves like
`malloc`; for a remove with an output buffer on a non-empty queue, the payload
of the element to be removed is a terminated string that fits the buffer. -/
def Call.admissible (h : Heap) (head : Ptr) : Call → Prop
  | .insert_head _ m _ => FreshIn h m
  | .insert_tail _ m _ => FreshIn h m
  | .remove_head sp bufsize =>
    sp = true → h.next head ≠ head → PayloadFits h (h.next head) bufsize
  | .remove_tail sp bufsize =>
    sp = true → h.prev head ≠ head → PayloadFits h (h.prev head) bufsize

/-- Every call of a sequence is admissible in the heap it is made in. -/
def ValidCalls (head : Ptr) : Heap → List Call → Prop
  | _, [] => True
  | h, c :: cs =>
    c.admissible h head ∧
      match c.run h head with
      | .ok k => ValidCalls head k cs
      | .error _ => True

/-- Every call of the sequence returns, and after each one the list is
well linked and `n.next.prev == n`, `n.prev.next == n` hold for the header and
for every node of the queue. -/
def CircularAfterEach (head : Ptr) : Heap → List Call → Prop
  | _, [] => True
  | h, c :: cs =>
    ∃ k ys, c.run h head = .ok k ∧ IsList k head ys ∧ Circular k (head :: ys) ∧
      CircularAfterEach head k cs

instance FreshIn.instDecFreshIn (h : Heap) : ∀ m : Option Ptr, Decidable (FreshIn h m)
  | none => by unfold FreshIn; exact inferInstance
  | some _ => by unfold FreshIn; exact inferInstance

instance Call.admissible.instDecAdmissible (h : Heap) (head : Ptr) :
    ∀ c : Call, Decidable (c.admissible h head)
  | .insert_head _ _ _ => by unfold Call.admissible; exact inferInstance
  | .insert_tail _ _ _ => by unfold Call.admissible; exact inferInstance
  | .remove_head _ _ => by unfold Call.admissible; exact inferInstance
  | .remove_tail _ _ => by unfold Call.admissible; exact inferInstance

instance ValidCalls.instDecValidCalls (head : Ptr) : ∀ (h : Heap) (cs : List Call),
    Decidable (ValidCalls head h cs)
  | _, [] => by unfold ValidCalls; exact inferInstance
  | h, c :: cs => by
    unfold ValidCalls
    cases c.run h head with
    | ok k =>
      have := ValidCalls.instDecValidCalls head k cs
      exact inferInstance
    | error _ => exact inferInstance

/-! ## Round trips -/

/-- Calls `q_insert_tail` once for each string, in order; the allocator hands
out the paired block.  Returns the final heap and the return values. -/
def insert_tail_each (head : Ptr) : Heap → List (String × Ptr) → Heap × List Bool
  | h, [] => (h, [])
  | h, (s, e) :: rest =>
    let r := q_insert_tail h head (some s) (some e) true
    let t := insert_tail_each head r.1 rest
    (t.1, r.2 :: t.2)

/-- Calls `q_insert_head` once for each string, in order; the allocator hands
out the paired block.  Returns the final heap and the return values. -/
def insert_head_each (head : Ptr) : Heap → List (String × Ptr) → Heap × List Bool
  | h, [] => (h, [])
  | h, (s, e) :: rest =>
    let r := q_insert_head h head (some s) (some e) true
    let t := insert_head_each head r.1 rest
    (t.1, r.2 :: t.2)

/-- Calls `q_remove_head(head, NULL, 0)` the given number of times.  Returns the
final heap and the returned elements, in order. -/
def remove_head_times (head : Ptr) : Nat → Heap → Except Fault (Heap × List Ptr)
  | 0, h => .ok (h, [])
  | n + 1, h =>
    match q_remove_head h head false 0 with
    | .error f => .error f
    | .ok r =>
      match remove_head_times head n r.heap with
      | .error f => .error f
      | .ok t => .ok (t.1, r.elem :: t.2)

/-! ## Traversals -/

/-- The nodes met by following `step` from `node` until `head` is reached
(`list_for_each` with `step = next`, backwards with `step = prev`). -/
def walk (step : Ptr → Ptr) (head : Ptr) : Nat → Ptr → List Ptr
  | 0, _ => []
  | fuel + 1, node => if node = head then [] else node :: walk step head fuel (step node)

/-- The elements of the queue in forward order. -/
def q_forward (fuel : Nat) (h : Heap) (head : Ptr) : List Ptr :=
  walk h.next head fuel (h.next head)

/-- The elements of the queue in backward order. -/
def q_backward (fuel : Nat) (h : Heap) (head : Ptr) : List Ptr :=
  walk h.prev head fuel (h.prev head)

/-- The payloads met by the forward traversal of the queue. -/
def q_values (fuel : Nat) (h : Heap) (head : Ptr) : List (Option String) :=
  payloads h (q_forward fuel h head)

/-- The payloads of the queue left by a run, if the run returned. -/
def values_after (fuel : Nat) (head : Ptr) : Except Fault (Heap × Bool) → Option (List (Option String))
  | .ok r => some (q_values fuel r.1 head)
  | .error _ => none

/-- The `i`-th node of `xs`, the header past the end. -/
def nodeAt (head : Ptr) : List Ptr → Nat → Ptr
  | [], _ => head
  | x :: _, 0 => x
  | _ :: xs, i + 1 => nodeAt head xs i

/-- The queue with header at address 1 obtained from `q_new` by a
`q_insert_tail` of each string of `vals` in order, the allocator handing out the
addresses 2, 3, ... -/
def queue_of (vals : List String) : Heap :=
  (insert_tail_each 1 (q_new Heap.empty (some 1)).1 (vals.zip (List.range' 2 vals.length))).1

/-! ## Orders named by the claims -/

/-- The order `x1, x0, x3, x2, ...`: positions `2i` and `2i + 1` exchanged
while both exist, a last unpaired element left in place. -/
def swap_pairs_spec : List Ptr → List Ptr
  | a :: b :: rest => b :: a :: swap_pairs_spec rest
  | [a] => [a]
  | [] => []

/-- The heap in which every node of `ns` has its `next` and `prev` fields
exchanged. -/
def flipOn (ns : List Ptr) (h : Heap) : Heap :=
  { h with
    next := fun p => if p ∈ ns then h.prev p else h.next p
    prev := fun p => if p ∈ ns then h.next p else h.prev p }

/-- The fault a run ended with, if it did not return. -/
def fault_of {α : Type} : Except Fault α → Option Fault
  | .ok _ => none
  | .error f => some f

/-- The characters a remove call stored through the output buffer, whether
they fitted it or overran it (`none`: nothing copied). -/
def copied_of : Except Fault Removed → Option (List Char)
  | .ok r => r.copied
  | .error (.overrun stored) => some stored
  | .error _ => none

/-! ## The loop of `q_delete_dup`, told on lists -/

/-- The heap after `list_del_init(&x->list); q_release_element(x)` for an
element `x`. -/
def released (h : Heap) (x : Ptr) : Heap :=
  ((list_del_init h x).setValue x none).setLive x false

/-- What the loop of `q_delete_dup` does to the list of linked nodes: `kept`
are the nodes already passed and still linked, the second list the nodes
still to visit, `s` the content of the scratch buffer and `v` the payload of
each node.  The result is the list of nodes left linked, or `none` when the run
ends in a fault (it reads the payload of the header, or overruns the buffer). -/
def dedup_run (v : Ptr → String) : List Ptr → List Ptr → String → Option (List Ptr)
  | kept, [], _ => some kept
  | kept, x :: r, s =>
    if s = v x then
      match r.head? with
      | none => none
      | some y =>
        if s ≠ v y then (if kept = [] then none else dedup_run v kept.dropLast r s)
        else dedup_run v kept r s
    else if 1024 < (v x).length + 1 then none
    else dedup_run v (kept ++ [x]) r (v x)

/-- A run of the loop of `q_delete_dup` agrees with `dedup_run`: it ends in a
fault other than lack of fuel when `dedup_run` says `none`, and otherwise
returns a heap holding a well-formed queue of the listed nodes, with their
payloads. -/
def DupPost (head : Ptr) (v : Ptr → String) : Except Fault Heap → Option (List Ptr) → Prop
  | r, none => ∃ f, r = .error f ∧ f ≠ Fault.fuel
  | r, some ys => ∃ k, r = .ok k ∧ IsQueue k head ys ∧ ∀ x ∈ ys, k.value x = some (v x)

/-- The payload string of the element at `x` (empty if there is none). -/
def payload (h : Heap) (x : Ptr) : String :=
  (h.value x).getD ""

/-! ## Field access after a store -/

@[simp] theorem Heap.setNext_next (h : Heap) (p v q : Ptr) :
    (h.setNext p v).next q = if q = p then v else h.next q := rfl

@[simp] theorem Heap.setNext_prev (h : Heap) (p v : Ptr) : (h.setNext p v).prev = h.prev := rfl

@[simp] theorem Heap.setNext_value (h : Heap) (p v : Ptr) : (h.setNext p v).value = h.value := rfl

@[simp] theorem Heap.setNext_live (h : Heap) (p v : Ptr) : (h.setNext p v).live = h.live := rfl

@[simp] theorem Heap.setPrev_prev (h : Heap) (p v q : Ptr) :
    (h.setPrev p v).prev q = if q = p then v else h.prev q := rfl

@[simp] theorem Heap.setPrev_next (h : Heap) (p v : Ptr) : (h.setPrev p v).next = h.next := rfl

@[simp] theorem Heap.setPrev_value (h : Heap) (p v : Ptr) : (h.setPrev p v).value = h.value := rfl

@[simp] theorem Heap.setPrev_live (h : Heap) (p v : Ptr) : (h.setPrev p v).live = h.live := rfl

@[simp] theorem Heap.setValue_value (h : Heap) (p : Ptr) (v : Option String) (q : Ptr) :
    (h.setValue p v).value q = if q = p then v else h.value q := rfl

@[simp] theorem Heap.setValue_next (h : Heap) (p : Ptr) (v : Option String) :
    (h.setValue p v).next = h.next := rfl

@[simp] theorem Heap.setValue_prev (h : Heap) (p : Ptr) (v : Option String) :
    (h.setValue p v).prev = h.prev := rfl

@[simp] theorem Heap.setValue_live (h : Heap) (p : Ptr) (v : Option String) :
    (h.setValue p v).live = h.live := rfl

@[simp] theorem Heap.setLive_live (h : Heap) (p : Ptr) (b : Bool) (q : Ptr) :
    (h.setLive p b).live q = if q = p then b else h.live q := rfl

@[simp] theorem Heap.setLive_next (h : Heap) (p : Ptr) (b : Bool) :
    (h.setLive p b).next = h.next := rfl

@[simp] theorem Heap.setLive_prev (h : Heap) (p : Ptr) (b : Bool) :
    (h.setLive p b).prev = h.prev := rfl

@[simp] theorem Heap.setLive_value (h : Heap) (p : Ptr) (b : Bool) :
    (h.setLive p b).value = h.value := rfl

theorem Heap.ext_fields {h k : Heap} (hn : ∀ p, h.next p = k.next p)
    (hp : ∀ p, h.prev p = k.prev p) (hv : ∀ p, h.value p = k.value p)
    (hl : ∀ p, h.live p = k.live p) : h = k := by
  cases h; cases k
  simp only [Heap.mk.injEq]
  exact ⟨funext hn, funext hp, funext hv, funext hl⟩

theorem list_del_init_next (h : Heap) (x q : Ptr) :
    (list_del_init h x).next q =
      if q = x then x else if q = h.prev x then h.next x else h.next q := rfl

theorem list_del_init_prev (h : Heap) (x q : Ptr) :
    (list_del_init h x).prev q =
      if q = x then x else if q = h.next x then h.prev x else h.prev q := rfl

@[simp] theorem list_del_init_value (h : Heap) (x : Ptr) :
    (list_del_init h x).value = h.value := rfl

@[simp] theorem list_del_init_live (h : Heap) (x : Ptr) :
    (list_del_init h x).live = h.live := rfl

theorem list_add_next (h : Heap) (e head q : Ptr) :
    (list_add h e head).next q =
      if q = head then e else if q = e then h.next head else h.next q := rfl

theorem list_add_prev (h : Heap) (e head q : Ptr) :
    (list_add h e head).prev q =
      if q = e then head else if q = h.next head then e else h.prev q := rfl

theorem list_add_tail_next (h : Heap) (e head q : Ptr) :
    (list_add_tail h e head).next q =
      if q = e then head else if q = h.prev head then e else h.next q := rfl

theorem list_add_tail_prev (h : Heap) (e head q : Ptr) :
    (list_add_tail h e head).prev q =
      if q = head then e else if q = e then h.prev head else h.prev q := rfl

/-! ## Lemmas on linked segments -/

theorem Linked.congr_heap {h k : Heap} : ∀ {xs : List Ptr} {a z : Ptr}, Linked h a xs z →
    (∀ p ∈ a :: xs, k.next p = h.next p) → (∀ p ∈ xs ++ [z], k.prev p = h.prev p) →
    Linked k a xs z
  | [], a, z, hl, hn, hp => by
    simp only [Linked] at hl ⊢
    rw [hn a (by simp), hp z (by simp)]
    exact hl
  | x :: xs, a, z, hl, hn, hp => by
    simp only [Linked] at hl ⊢
    refine ⟨⟨?_, ?_⟩, Linked.congr_heap hl.2 ?_ ?_⟩
    · rw [hn a (by simp)]; exact hl.1.1
    · rw [hp x (by simp)]; exact hl.1.2
    · intro p hp'; exact hn p (List.mem_cons_of_mem _ hp')
    · intro p hp'; exact hp p (by simp at hp' ⊢; tauto)

theorem Linked.append_iff {h : Heap} : ∀ {xs : List Ptr} {a y : Ptr} {ys : List Ptr} {z : Ptr},
    Linked h a (xs ++ y :: ys) z ↔ Linked h a xs y ∧ Linked h y ys z
  | [], a, y, ys, z => by simp [Linked]
  | x :: xs, a, y, ys, z => by
    have ih := @Linked.append_iff h xs x y ys z
    show ((h.next a = x ∧ h.prev x = a) ∧ Linked h x (xs ++ y :: ys) z) ↔ _
    rw [ih]; simp only [Linked, and_assoc]

theorem Linked.prev_mem {h : Heap} : ∀ {xs : List Ptr} {a z : Ptr}, Linked h a xs z →
    h.prev z ∈ a :: xs
  | [], a, z, hl => by simp only [Linked] at hl; simp [hl.2]
  | x :: xs, a, z, hl => by
    simp only [Linked] at hl
    exact List.mem_cons_of_mem _ (Linked.prev_mem hl.2)

theorem Linked.next_mem {h : Heap} : ∀ {xs : List Ptr} {a z : Ptr}, Linked h a xs z →
    h.next a ∈ xs ++ [z]
  | [], a, z, hl => by simp only [Linked] at hl; simp [hl.1]
  | x :: xs, a, z, hl => by simp only [Linked] at hl; simp [hl.1.1]

theorem Linked.circ_next {h : Heap} : ∀ {xs : List Ptr} {a z : Ptr}, Linked h a xs z →
    ∀ n ∈ a :: xs, h.prev (h.next n) = n
  | [], a, z, hl, n, hn => by
    simp only [Linked] at hl
    simp only [List.mem_singleton] at hn
    subst hn; rw [hl.1, hl.2]
  | x :: xs, a, z, hl, n, hn => by
    simp only [Linked] at hl
    rcases List.mem_cons.1 hn with rfl | hn
    · rw [hl.1.1, hl.1.2]
    · exact Linked.circ_next hl.2 n hn

theorem Linked.circ_prev {h : Heap} : ∀ {xs : List Ptr} {a z : Ptr}, Linked h a xs z →
    ∀ n ∈ xs ++ [z], h.next (h.prev n) = n
  | [], a, z, hl, n, hn => by
    simp only [Linked] at hl
    simp only [List.nil_append, List.mem_singleton] at hn
    subst hn; rw [hl.2, hl.1]
  | x :: xs, a, z, hl, n, hn => by
    simp only [Linked] at hl
    rcases List.mem_cons.1 hn with rfl | hn
    · rw [hl.1.2, hl.1.1]
    · exact Linked.circ_prev hl.2 n hn

/-- Two heaps that link the same segment agree on its `next` fields. -/
theorem Linked.next_eq {h k : Heap} : ∀ {xs : List Ptr} {a z : Ptr}, Linked h a xs z →
    Linked k a xs z → ∀ n ∈ a :: xs, h.next n = k.next n
  | [], a, z, hl, kl, n, hn => by
    simp only [Linked] at hl kl
    simp only [List.mem_singleton] at hn
    subst hn; rw [hl.1, kl.1]
  | x :: xs, a, z, hl, kl, n, hn => by
    simp only [Linked] at hl kl
    rcases List.mem_cons.1 hn with rfl | hn
    · rw [hl.1.1, kl.1.1]
    · exact Linked.next_eq hl.2 kl.2 n hn

/-- Two heaps that link the same segment agree on its `prev` fields. -/
theorem Linked.prev_eq {h k : Heap} : ∀ {xs : List Ptr} {a z : Ptr}, Linked h a xs z →
    Linked k a xs z → ∀ n ∈ xs ++ [z], h.prev n = k.prev n
  | [], a, z, hl, kl, n, hn => by
    simp only [Linked] at hl kl
    simp only [List.nil_append, List.mem_singleton] at hn
    subst hn; rw [hl.2, kl.2]
  | x :: xs, a, z, hl, kl, n, hn => by
    simp only [Linked] at hl kl
    rcases List.mem_cons.1 hn with rfl | hn
    · rw [hl.1.2, kl.1.2]
    · exact Linked.prev_eq hl.2 kl.2 n hn

/-- Unlinking `x` from the middle of a linked segment links its neighbours. -/
theorem Linked.unlink_seg {h : Heap} {x : Ptr} : ∀ {l1 : List Ptr} {a : Ptr} {l2 : List Ptr} {z : Ptr},
    Linked h a l1 x → Linked h x l2 z → (a :: (l1 ++ x :: l2)).Nodup →
    (l1 ++ x :: (l2 ++ [z])).Nodup → Linked (list_del_init h x) a (l1 ++ l2) z
  | [], a, [], z, h1, h2, nd1, nd2 => by
    simp only [Linked] at h1 h2 ⊢
    simp only [List.nil_append, List.nodup_cons, List.mem_cons, List.mem_singleton,
      List.not_mem_nil, or_false, not_false_eq_true, List.nodup_nil, and_true] at nd1 nd2
    have hax : a ≠ x := nd1
    have hzx : z ≠ x := fun e => nd2 e.symm
    rw [list_del_init_next, list_del_init_prev, h1.2, h2.1]
    simp [hax, hzx]
  | [], a, y :: l2, z, h1, h2, nd1, nd2 => by
    simp only [Linked] at h1 h2
    simp only [List.nil_append, List.nodup_cons, List.mem_cons, List.mem_append,
      List.mem_singleton, not_or, List.cons_append] at nd1 nd2
    obtain ⟨⟨hax, hay, hal⟩, ⟨hxy, hxl⟩, hyl, _⟩ := nd1
    obtain ⟨⟨_, _, hxz⟩, ⟨hyl2, hyz⟩, nd3⟩ := nd2
    show (_ ∧ _) ∧ _
    refine ⟨⟨?_, ?_⟩, Linked.congr_heap h2.2 ?_ ?_⟩
    · rw [list_del_init_next, h1.2, h2.1.1]; simp [hax]
    · rw [list_del_init_prev, h1.2, h2.1.1]; simp [Ne.symm hxy]
    · intro p hp
      rw [list_del_init_next, h1.2]
      have hpx : p ≠ x := by
        rintro rfl; simp only [List.mem_cons] at hp; tauto
      have hpa : p ≠ a := by
        rintro rfl; simp only [List.mem_cons] at hp; tauto
      simp [hpx, hpa]
    · intro p hp
      rw [list_del_init_prev, h2.1.1]
      have hpx : p ≠ x := by
        rintro rfl; simp only [List.mem_append, List.mem_singleton] at hp; tauto
      have hpy : p ≠ y := by
        rintro rfl; simp only [List.mem_append, List.mem_singleton] at hp; tauto
      simp [hpx, hpy]
  | b :: l1, a, l2, z, h1, h2, nd1, nd2 => by
    simp only [Linked] at h1
    have hpm := Linked.prev_mem h1.2
    have hnm := Linked.next_mem h2
    simp only [List.cons_append, List.nodup_cons, List.mem_cons, List.mem_append,
      List.mem_singleton, not_or] at nd1 nd2
    obtain ⟨⟨hab, hal1, hax, hal2⟩, nd1b⟩ := nd1
    obtain ⟨⟨hbl1, hbx, hbl2, hbz⟩, nd2b⟩ := nd2
    show (_ ∧ _) ∧ _
    refine ⟨⟨?_, ?_⟩, Linked.unlink_seg h1.2 h2 ?_ nd2b⟩
    · rw [list_del_init_next]
      have : a ≠ h.prev x := by
        intro e; rw [← e] at hpm
        simp only [List.mem_cons] at hpm; tauto
      simp [hax, this, h1.1.1]
    · rw [list_del_init_prev]
      have : b ≠ h.next x := by
        intro e; rw [← e] at hnm
        simp only [List.mem_append, List.mem_singleton] at hnm; tauto
      simp [hbx, this, h1.1.2]
    · simp only [List.nodup_cons, List.mem_append, List.mem_cons, not_or]
      exact ⟨⟨hbl1, hbx, hbl2⟩, nd1b.2⟩

/-- Linking a new node right after the first node of a segment. -/
theorem Linked.add_front {h : Heap} {e a z : Ptr} : ∀ {xs : List Ptr},
    Linked h a xs z → (a :: xs).Nodup → (xs ++ [z]).Nodup → e ∉ a :: xs → e ≠ z →
    Linked (list_add h e a) a (e :: xs) z
  | [], hl, _, _, he, hez => by
    simp only [Linked] at hl ⊢
    simp only [List.mem_singleton] at he
    rw [list_add_next, list_add_next, list_add_prev, list_add_prev, hl.1]
    simp [he, Ne.symm hez]
  | y :: ys, hl, nd1, nd2, he, hez => by
    simp only [Linked] at hl
    simp only [List.nodup_cons, List.mem_cons, List.mem_append, List.mem_singleton, not_or,
      List.cons_append] at nd1 nd2 he
    obtain ⟨⟨hay, hays⟩, hyys, _⟩ := nd1
    obtain ⟨⟨hyys2, hyz⟩, _⟩ := nd2
    obtain ⟨hea, hey, heys⟩ := he
    show (_ ∧ _) ∧ (_ ∧ _) ∧ _
    refine ⟨⟨?_, ?_⟩, ⟨?_, ?_⟩, Linked.congr_heap hl.2 ?_ ?_⟩
    · rw [list_add_next]; simp
    · rw [list_add_prev]; simp
    · rw [list_add_next, hl.1.1]; simp [hea]
    · rw [list_add_prev, hl.1.1]; simp [Ne.symm hey]
    · intro p hp
      rw [list_add_next]
      have hpa : p ≠ a := by
        rintro rfl; simp only [List.mem_cons] at hp; tauto
      have hpe : p ≠ e := by
        rintro rfl; simp only [List.mem_cons] at hp; tauto
      simp [hpa, hpe]
    · intro p hp
      rw [list_add_prev, hl.1.1]
      have hpe : p ≠ e := by
        rintro rfl; simp only [List.mem_append, List.mem_singleton] at hp; tauto
      have hpy : p ≠ y := by
        rintro rfl; simp only [List.mem_append, List.mem_singleton] at hp; tauto
      simp [hpe, hpy]

/-- Linking a new node right before the last node of a segment. -/
theorem Linked.add_back {h : Heap} {e z : Ptr} : ∀ {xs : List Ptr} {a : Ptr},
    Linked h a xs z → (a :: xs).Nodup → z ∉ xs → e ∉ a :: xs → e ≠ z →
    Linked (list_add_tail h e z) a (xs ++ [e]) z
  | [], a, hl, _, _, he, hez => by
    simp only [Linked] at hl
    simp only [List.mem_singleton] at he
    show (_ ∧ _) ∧ (_ ∧ _)
    rw [list_add_tail_next, list_add_tail_next, list_add_tail_prev, list_add_tail_prev, hl.2]
    simp [Ne.symm he, hez]
  | x :: xs, a, hl, nd, hz, he, hez => by
    simp only [Linked] at hl
    have hpm := Linked.prev_mem hl.2
    simp only [List.nodup_cons, List.mem_cons, not_or] at nd hz he
    obtain ⟨⟨hax, haxs⟩, hxxs, nd2⟩ := nd
    obtain ⟨hea, hex, hexs⟩ := he
    show (_ ∧ _) ∧ _
    refine ⟨⟨?_, ?_⟩, Linked.add_back hl.2 ?_ hz.2 ?_ hez⟩
    · rw [list_add_tail_next]
      have : a ≠ h.prev z := by
        intro e'; rw [← e'] at hpm
        simp only [List.mem_cons] at hpm; tauto
      simp [Ne.symm hea, this, hl.1.1]
    · rw [list_add_tail_prev]
      simp [Ne.symm hz.1, Ne.symm hex, hl.1.2]
    · simp only [List.nodup_cons]; exact ⟨hxxs, nd2⟩
    · simp only [List.mem_cons, not_or]; exact ⟨hex, hexs⟩

/-! ## Well-formed queues: consequences and preservation -/

theorem IsQueue.circular {h : Heap} {head : Ptr} {xs : List Ptr} (q : IsQueue h head xs) :
    Circular h (head :: xs) := by
  obtain ⟨_, nd, _, hl, _⟩ := q
  intro n hn
  refine ⟨Linked.circ_next hl n hn, Linked.circ_prev hl n ?_⟩
  simp only [List.mem_cons, List.mem_append, List.mem_singleton] at hn ⊢
  tauto

theorem IsQueue.nil_iff_next {h : Heap} {head : Ptr} {xs : List Ptr} (q : IsQueue h head xs) :
    h.next head = head ↔ xs = [] := by
  obtain ⟨_, nd, _, hl, _⟩ := q
  cases xs with
  | nil => simp only [Linked] at hl; simp [hl.1]
  | cons x xs =>
    simp only [Linked] at hl
    simp only [List.nodup_cons, List.mem_cons, not_or] at nd
    simp only [hl.1.1, reduceCtorEq, iff_false]
    exact fun e => nd.1.1 e.symm

theorem IsQueue.list_empty_eq {h : Heap} {head : Ptr} {xs : List Ptr} (q : IsQueue h head xs) :
    list_empty h head = decide (xs = []) := by
  unfold list_empty
  rw [decide_eq_decide]
  exact q.nil_iff_next

/-- Two heaps holding the same queue agree on the links of all its nodes. -/
theorem IsQueue.links_eq {h k : Heap} {head : Ptr} {xs : List Ptr} (q : IsQueue h head xs)
    (q' : IsQueue k head xs) : ∀ n ∈ head :: xs, h.next n = k.next n ∧ h.prev n = k.prev n := by
  intro n hn
  refine ⟨Linked.next_eq q.2.2.2.1 q'.2.2.2.1 n hn, Linked.prev_eq q.2.2.2.1 q'.2.2.2.1 n ?_⟩
  simp only [List.mem_cons, List.mem_append, List.mem_singleton] at hn ⊢
  tauto

/-- Unlinking a node of a well-formed queue leaves a well-formed queue of the
other nodes, in their order. -/
theorem IsQueue.unlink_node {h : Heap} {head x : Ptr} {l1 l2 : List Ptr}
    (q : IsQueue h head (l1 ++ x :: l2)) : IsQueue (list_del_init h x) head (l1 ++ l2) := by
  obtain ⟨h0, nd, hz, hl, hlive, hval, hel⟩ := q
  rw [Linked.append_iff] at hl
  refine ⟨h0, ?_, ?_, Linked.unlink_seg hl.1 hl.2 nd ?_, hlive, hval, ?_⟩
  · refine nd.sublist ?_
    simp
  · simp only [List.mem_append, List.mem_cons, not_or] at hz ⊢
    tauto
  · have e : l1 ++ x :: (l2 ++ [head]) = (l1 ++ x :: l2) ++ [head] := by simp
    rw [e]
    exact (List.perm_append_singleton _ _).nodup_iff.2 nd
  · intro y hy
    simp only [list_del_init_value, list_del_init_live]
    apply hel
    simp only [List.mem_append, List.mem_cons] at hy ⊢
    tauto

theorem IsQueue.not_mem_of_not_live {h : Heap} {head : Ptr} {xs : List Ptr}
    (q : IsQueue h head xs) {e : Ptr} (he : h.live e = false) : e ∉ head :: xs := by
  obtain ⟨_, _, _, _, hlive, _, hel⟩ := q
  intro hm
  rcases List.mem_cons.1 hm with rfl | hm
  · rw [he] at hlive; exact Bool.noConfusion hlive
  · have := (hel e hm).1
    rw [he] at this; exact Bool.noConfusion this

/-- A string whose length with the terminator fits an `int` has that length
as `len`. -/
theorem gen_len_of_lt {s : String} (hs : s.length + 1 < 2147483648) :
    gen_len s = s.length + 1 := by
  unfold gen_len; omega

/-- The heap built by a successful `gen_element` for a string whose length
with the terminator fits an `int`. -/
theorem gen_element_ok (h : Heap) {s : String} (hs : s.length + 1 < 2147483648) (e : Ptr) :
    gen_element h s (some e) true =
      (INIT_LIST_HEAD ((h.setLive e true).setValue e (some s)) e, e) := by
  have hl := gen_len_of_lt hs
  have hn : ¬ 2147483648 ≤ s.length + 1 := by omega
  simp [gen_element, hl, hn]

/-- The outcomes of `gen_element` once the first allocation succeeded: the
block is given back, or an element with some payload buffer is initialised. -/
theorem gen_element_cases (h : Heap) (s : String) (e : Ptr) (mv : Bool) :
    gen_element h s (some e) mv = ((h.setLive e true).setLive e false, 0) ∨
      ∃ pv, gen_element h s (some e) mv =
        (INIT_LIST_HEAD ((h.setLive e true).setValue e pv) e, e) := by
  by_cases hc : mv = false ∨ 2147483648 ≤ gen_len s
  · left; simp only [gen_element, if_pos hc]
  · right
    exact ⟨if gen_len s = s.length + 1 then some s else none,
      by simp only [gen_element, if_neg hc]⟩

theorem q_insert_head_ok (h : Heap) {head : Ptr} (s : String) {e : Ptr}
    (hs : s.length + 1 < 2147483648) (hh : head ≠ 0)
    (he : e ≠ 0) : q_insert_head h head (some s) (some e) true =
      (list_add (INIT_LIST_HEAD ((h.setLive e true).setValue e (some s)) e) e head, true) := by
  simp [q_insert_head, gen_element_ok h hs, hh, he]

theorem q_insert_tail_ok (h : Heap) {head : Ptr} (s : String) {e : Ptr}
    (hs : s.length + 1 < 2147483648) (hh : head ≠ 0)
    (he : e ≠ 0) : q_insert_tail h head (some s) (some e) true =
      (list_add_tail (INIT_LIST_HEAD ((h.setLive e true).setValue e (some s)) e) e head, true) := by
  simp [q_insert_tail, gen_element_ok h hs, hh, he]

/-- A fresh element, once initialised, does not disturb the queue. -/
theorem Linked.gen_fresh {h : Heap} {head : Ptr} {xs : List Ptr} (hl : Linked h head xs head)
    (pv : Option String) {e : Ptr} (hne : e ∉ head :: xs) :
    Linked (INIT_LIST_HEAD ((h.setLive e true).setValue e pv) e) head xs head := by
  refine Linked.congr_heap hl ?_ ?_
  · intro p hp
    have : p ≠ e := by rintro rfl; exact hne hp
    simp [INIT_LIST_HEAD, this]
  · intro p hp
    have : p ≠ e := by
      rintro rfl
      simp only [List.mem_append, List.mem_singleton, List.mem_cons] at hp hne; tauto
    simp [INIT_LIST_HEAD, this]

theorem list_add_value (h : Heap) (e head : Ptr) : (list_add h e head).value = h.value := rfl

theorem list_add_live (h : Heap) (e head : Ptr) : (list_add h e head).live = h.live := rfl

theorem list_add_tail_value (h : Heap) (e head : Ptr) :
    (list_add_tail h e head).value = h.value := rfl

theorem list_add_tail_live (h : Heap) (e head : Ptr) :
    (list_add_tail h e head).live = h.live := rfl

theorem INIT_LIST_HEAD_value (h : Heap) (e : Ptr) : (INIT_LIST_HEAD h e).value = h.value := rfl

theorem INIT_LIST_HEAD_live (h : Heap) (e : Ptr) : (INIT_LIST_HEAD h e).live = h.live := rfl

/-! ## Well-linked lists: the link part of a queue -/

theorem IsQueue.isList {h : Heap} {head : Ptr} {xs : List Ptr} (q : IsQueue h head xs) :
    IsList h head xs :=
  ⟨q.1, q.2.1, q.2.2.1, q.2.2.2.1, q.2.2.2.2.1, fun x hx => (q.2.2.2.2.2.2 x hx).1⟩

theorem IsList.circular_links {h : Heap} {head : Ptr} {xs : List Ptr} (q : IsList h head xs) :
    Circular h (head :: xs) := by
  obtain ⟨_, nd, _, hl, _⟩ := q
  intro n hn
  refine ⟨Linked.circ_next hl n hn, Linked.circ_prev hl n ?_⟩
  simp only [List.mem_cons, List.mem_append, List.mem_singleton] at hn ⊢
  tauto

theorem IsList.nil_iff_next_head {h : Heap} {head : Ptr} {xs : List Ptr} (q : IsList h head xs) :
    h.next head = head ↔ xs = [] := by
  obtain ⟨_, nd, _, hl, _⟩ := q
  cases xs with
  | nil => simp only [Linked] at hl; simp [hl.1]
  | cons x xs =>
    simp only [Linked] at hl
    simp only [List.nodup_cons, List.mem_cons, not_or] at nd
    simp only [hl.1.1, reduceCtorEq, iff_false]
    exact fun e => nd.1.1 e.symm

theorem IsList.list_empty_decide {h : Heap} {head : Ptr} {xs : List Ptr} (q : IsList h head xs) :
    list_empty h head = decide (xs = []) := by
  unfold list_empty
  rw [decide_eq_decide]
  exact q.nil_iff_next_head

/-- Unlinking a node of a well-linked list leaves a well-linked list of the
other nodes, in their order. -/
theorem IsList.unlink_elem {h : Heap} {head x : Ptr} {l1 l2 : List Ptr}
    (q : IsList h head (l1 ++ x :: l2)) : IsList (list_del_init h x) head (l1 ++ l2) := by
  obtain ⟨h0, nd, hz, hl, hlive, hel⟩ := q
  rw [Linked.append_iff] at hl
  refine ⟨h0, ?_, ?_, Linked.unlink_seg hl.1 hl.2 nd ?_, hlive, ?_⟩
  · refine nd.sublist ?_
    simp
  · simp only [List.mem_append, List.mem_cons, not_or] at hz ⊢
    tauto
  · have e : l1 ++ x :: (l2 ++ [head]) = (l1 ++ x :: l2) ++ [head] := by simp
    rw [e]
    exact (List.perm_append_singleton _ _).nodup_iff.2 nd
  · intro y hy
    simp only [list_del_init_live]
    apply hel
    simp only [List.mem_append, List.mem_cons] at hy ⊢
    tauto

theorem IsList.not_mem_fresh {h : Heap} {head : Ptr} {xs : List Ptr}
    (q : IsList h head xs) {e : Ptr} (he : h.live e = false) : e ∉ head :: xs := by
  obtain ⟨_, _, _, _, hlive, hel⟩ := q
  intro hm
  rcases List.mem_cons.1 hm with rfl | hm
  · rw [he] at hlive; exact Bool.noConfusion hlive
  · have := hel e hm
    rw [he] at this; exact Bool.noConfusion this

/-- Linking a fresh element, whatever its payload buffer holds, in front of a
well-linked list. -/
theorem IsList.add_head {h : Heap} {head : Ptr} {xs : List Ptr} (q : IsList h head xs)
    (pv : Option String) {e : Ptr} (he : e ≠ 0) (hfresh : h.live e = false) :
    IsList (list_add (INIT_LIST_HEAD ((h.setLive e true).setValue e pv) e) e head) head
      (e :: xs) := by
  have hne := q.not_mem_fresh hfresh
  have hl := Linked.gen_fresh q.2.2.2.1 pv hne
  obtain ⟨h0, nd, hz, _, hlive, hel⟩ := q
  have hne' := hne
  simp only [List.mem_cons, not_or] at hne'
  refine ⟨h0, ?_, ?_, ?_, ?_, ?_⟩
  · rw [List.nodup_cons] at nd ⊢
    refine ⟨?_, List.nodup_cons.2 ⟨hne'.2, nd.2⟩⟩
    simp only [List.mem_cons, not_or]
    exact ⟨fun e' => hne'.1 e'.symm, nd.1⟩
  · simp only [List.mem_cons, not_or]; exact ⟨fun e' => he e'.symm, hz⟩
  · refine Linked.add_front hl nd ?_ hne hne'.1
    exact (List.perm_append_singleton _ _).nodup_iff.2 nd
  · simp [list_add_live, INIT_LIST_HEAD_live, Ne.symm hne'.1, hlive]
  · intro x hx
    simp only [list_add_live, INIT_LIST_HEAD_live, Heap.setValue_live, Heap.setLive_live]
    rcases List.mem_cons.1 hx with rfl | hx
    · simp
    · have : x ≠ e := fun e' => hne'.2 (e' ▸ hx)
      simp [this, hel x hx]

/-- Linking a fresh element, whatever its payload buffer holds, at the back of
a well-linked list. -/
theorem IsList.add_tail {h : Heap} {head : Ptr} {xs : List Ptr} (q : IsList h head xs)
    (pv : Option String) {e : Ptr} (he : e ≠ 0) (hfresh : h.live e = false) :
    IsList (list_add_tail (INIT_LIST_HEAD ((h.setLive e true).setValue e pv) e) e head) head
      (xs ++ [e]) := by
  have hne := q.not_mem_fresh hfresh
  have hl := Linked.gen_fresh q.2.2.2.1 pv hne
  obtain ⟨h0, nd, hz, _, hlive, hel⟩ := q
  have hne' := hne
  simp only [List.mem_cons, not_or] at hne'
  refine ⟨h0, ?_, ?_, ?_, ?_, ?_⟩
  · rw [List.nodup_cons] at nd ⊢
    refine ⟨?_, ?_⟩
    · simp only [List.mem_append, List.mem_singleton, not_or]
      exact ⟨nd.1, fun e' => hne'.1 e'.symm⟩
    · exact (List.perm_append_singleton _ _).nodup_iff.2 (List.nodup_cons.2 ⟨hne'.2, nd.2⟩)
  · simp only [List.mem_append, List.mem_singleton, not_or]; exact ⟨hz, fun e' => he e'.symm⟩
  · exact Linked.add_back hl nd (List.nodup_cons.1 nd).1 hne hne'.1
  · simp [list_add_tail_live, INIT_LIST_HEAD_live, Ne.symm hne'.1, hlive]
  · intro x hx
    simp only [list_add_tail_live, INIT_LIST_HEAD_live, Heap.setValue_live, Heap.setLive_live]
    rcases List.mem_append.1 hx with hx | hx
    · have : x ≠ e := fun e' => hne'.2 (e' ▸ hx)
      simp [this, hel x hx]
    · simp only [List.mem_singleton] at hx; subst hx; simp

/-- A payload that fits is a terminated string no longer than the buffer. -/
theorem PayloadFits.payload_le {h : Heap} {x : Ptr} {bufsize : Nat}
    (hf : PayloadFits h x bufsize) : ∃ v, h.value x = some v ∧ v.length + 1 ≤ bufsize := by
  unfold PayloadFits at hf
  cases hv : h.value x with
  | none => rw [hv] at hf; exact hf.elim
  | some v => rw [hv] at hf; exact ⟨v, rfl, hf⟩

theorem IsList.remove_head_nil {h : Heap} {head : Ptr} (q : IsList h head []) (sp : Bool)
    (bufsize : Nat) : q_remove_head h head sp bufsize = .ok ⟨h, 0, none⟩ := by
  simp [q_remove_head, q.list_empty_decide]

/-- On a non-empty list `q_remove_head` unlinks and returns the first element,
provided that the payload fits the output buffer when there is one. -/
theorem IsList.remove_head_cons {h : Heap} {head x : Ptr} {xs : List Ptr}
    (q : IsList h head (x :: xs)) (sp : Bool) (bufsize : Nat)
    (hfit : sp = true → PayloadFits h x bufsize) :
    ∃ c, q_remove_head h head sp bufsize = .ok ⟨list_del_init h x, x, c⟩ := by
  have hx : h.next head = x := q.2.2.2.1.1.1
  cases sp with
  | false => exact ⟨none, by simp [q_remove_head, q.list_empty_decide, q.1, hx]⟩
  | true =>
    obtain ⟨v, hv, hle⟩ := (hfit rfl).payload_le
    exact ⟨some (v.data ++ [Char.ofNat 0]),
      by simp [q_remove_head, q.list_empty_decide, q.1, hx, hv, hle]⟩

/-- On a non-empty list `q_remove_tail` unlinks and returns the last element,
provided that the payload fits the output buffer when there is one. -/
theorem IsList.remove_tail_concat {h : Heap} {head x : Ptr} {xs : List Ptr}
    (q : IsList h head (xs ++ [x])) (sp : Bool) (bufsize : Nat)
    (hfit : sp = true → PayloadFits h x bufsize) :
    ∃ c, q_remove_tail h head sp bufsize = .ok ⟨list_del_init h x, x, c⟩ := by
  obtain ⟨h0, nd, hz, hl, hlive, hel⟩ := q
  rw [Linked.append_iff] at hl
  obtain ⟨hl1, hl2⟩ := hl
  simp only [Linked] at hl2
  have hpm := Linked.prev_mem hl1
  have hcp := Linked.circ_prev hl1 x (by simp)
  have hp0 : h.prev x ≠ 0 := by
    intro e; rw [e] at hpm
    rcases List.mem_cons.1 hpm with e' | hm
    · exact h0 e'.symm
    · exact hz (List.mem_append_left _ hm)
  have hpx : x ≠ h.prev x := by
    intro e; rw [← e] at hpm
    have := (List.perm_append_singleton x (head :: xs)).nodup_iff.1 (by simpa using nd)
    exact (List.nodup_cons.1 this).1 hpm
  cases sp with
  | false =>
    exact ⟨none, by simp [q_remove_tail, q_remove_head, list_empty, h0, hl2.2, hp0, hcp, hpx]⟩
  | true =>
    obtain ⟨v, hv, hle⟩ := (hfit rfl).payload_le
    exact ⟨some (v.data ++ [Char.ofNat 0]),
      by simp [q_remove_tail, q_remove_head, list_empty, h0, hl2.2, hp0, hcp, hpx, hv, hle]⟩

theorem IsList.remove_tail_nil {h : Heap} {head : Ptr} (q : IsList h head []) (sp : Bool)
    (bufsize : Nat) : q_remove_tail h head sp bufsize = .ok ⟨h, 0, none⟩ := by
  have hl := q.2.2.2.1
  simp only [Linked] at hl
  simp [q_remove_tail, q_remove_head, list_empty, q.1, hl.1, hl.2]

/-- The last element of a non-empty list is `head->prev`. -/
theorem IsList.prev_head {h : Heap} {head x : Ptr} {xs : List Ptr}
    (q : IsList h head (xs ++ [x])) : h.prev head = x ∧ x ≠ head := by
  obtain ⟨h0, nd, hz, hl, hlive, hel⟩ := q
  rw [Linked.append_iff] at hl
  obtain ⟨hl1, hl2⟩ := hl
  simp only [Linked] at hl2
  refine ⟨hl2.2, ?_⟩
  rintro rfl
  exact (List.nodup_cons.1 nd).1 (by simp)

/-- A successful `q_insert_head` links the new element in front. -/
theorem IsQueue.after_insert_head {h : Heap} {head : Ptr} {xs : List Ptr} (q : IsQueue h head xs)
    (s : String) {e : Ptr} (hs : s.length + 1 < 2147483648) (he : e ≠ 0)
    (hfresh : h.live e = false) :
    IsQueue (q_insert_head h head (some s) (some e) true).1 head (e :: xs) ∧
      (q_insert_head h head (some s) (some e) true).1.value e = some s ∧
      (∀ p, p ≠ e → (q_insert_head h head (some s) (some e) true).1.value p = h.value p) := by
  have hne := q.not_mem_of_not_live hfresh
  have hl := Linked.gen_fresh q.2.2.2.1 (some s) hne
  obtain ⟨h0, nd, hz, _, hlive, hval, hel⟩ := q
  rw [q_insert_head_ok h s hs h0 he]
  have hne' := hne
  simp only [List.mem_cons, not_or] at hne'
  refine ⟨⟨h0, ?_, ?_, ?_, ?_, ?_, ?_⟩, ?_, ?_⟩
  · rw [List.nodup_cons] at nd ⊢
    refine ⟨?_, List.nodup_cons.2 ⟨hne'.2, nd.2⟩⟩
    simp only [List.mem_cons, not_or]
    exact ⟨fun e' => hne'.1 e'.symm, nd.1⟩
  · simp only [List.mem_cons, not_or]; exact ⟨fun e' => he e'.symm, hz⟩
  · refine Linked.add_front hl nd ?_ hne hne'.1
    exact (List.perm_append_singleton _ _).nodup_iff.2 nd
  · simp [list_add_live, INIT_LIST_HEAD_live, Ne.symm hne'.1, hlive]
  · simp [list_add_value, INIT_LIST_HEAD_value, Ne.symm hne'.1, hval]
  · intro x hx
    simp only [list_add_live, INIT_LIST_HEAD_live, list_add_value, INIT_LIST_HEAD_value,
      Heap.setValue_value, Heap.setValue_live, Heap.setLive_live]
    rcases List.mem_cons.1 hx with rfl | hx
    · simp
    · have : x ≠ e := fun e' => hne'.2 (e' ▸ hx)
      simp [this, hel x hx]
  · simp [list_add_value, INIT_LIST_HEAD_value]
  · intro p hp
    simp [list_add_value, INIT_LIST_HEAD_value, hp]

/-- A successful `q_insert_tail` links the new element at the back. -/
theorem IsQueue.after_insert_tail {h : Heap} {head : Ptr} {xs : List Ptr} (q : IsQueue h head xs)
    (s : String) {e : Ptr} (hs : s.length + 1 < 2147483648) (he : e ≠ 0)
    (hfresh : h.live e = false) :
    IsQueue (q_insert_tail h head (some s) (some e) true).1 head (xs ++ [e]) ∧
      (q_insert_tail h head (some s) (some e) true).1.value e = some s ∧
      (∀ p, p ≠ e → (q_insert_tail h head (some s) (some e) true).1.value p = h.value p) := by
  have hne := q.not_mem_of_not_live hfresh
  have hl := Linked.gen_fresh q.2.2.2.1 (some s) hne
  obtain ⟨h0, nd, hz, _, hlive, hval, hel⟩ := q
  rw [q_insert_tail_ok h s hs h0 he]
  have hne' := hne
  simp only [List.mem_cons, not_or] at hne'
  refine ⟨⟨h0, ?_, ?_, ?_, ?_, ?_, ?_⟩, ?_, ?_⟩
  · rw [List.nodup_cons] at nd ⊢
    refine ⟨?_, ?_⟩
    · simp only [List.mem_append, List.mem_singleton, not_or]
      exact ⟨nd.1, fun e' => hne'.1 e'.symm⟩
    · exact (List.perm_append_singleton _ _).nodup_iff.2 (List.nodup_cons.2 ⟨hne'.2, nd.2⟩)
  · simp only [List.mem_append, List.mem_singleton, not_or]; exact ⟨hz, fun e' => he e'.symm⟩
  · exact Linked.add_back hl nd (List.nodup_cons.1 nd).1 hne hne'.1
  · simp [list_add_tail_live, INIT_LIST_HEAD_live, Ne.symm hne'.1, hlive]
  · simp [list_add_tail_value, INIT_LIST_HEAD_value, Ne.symm hne'.1, hval]
  · intro x hx
    simp only [list_add_tail_live, INIT_LIST_HEAD_live, list_add_tail_value,
      INIT_LIST_HEAD_value, Heap.setValue_value, Heap.setValue_live, Heap.setLive_live]
    rcases List.mem_append.1 hx with hx | hx
    · have : x ≠ e := fun e' => hne'.2 (e' ▸ hx)
      simp [this, hel x hx]
    · simp only [List.mem_singleton] at hx; subst hx; simp
  · simp [list_add_tail_value, INIT_LIST_HEAD_value]
  · intro p hp
    simp [list_add_tail_value, INIT_LIST_HEAD_value, hp]

theorem q_remove_head_nil {h : Heap} {head : Ptr} (q : IsQueue h head []) (sp : Bool)
    (bufsize : Nat) : q_remove_head h head sp bufsize = .ok ⟨h, 0, none⟩ :=
  q.isList.remove_head_nil sp bufsize

/-- On a non-empty queue `q_remove_head` unlinks and returns the first element,
provided that the payload fits the output buffer when there is one. -/
theorem q_remove_head_cons {h : Heap} {head x : Ptr} {xs : List Ptr}
    (q : IsQueue h head (x :: xs)) (sp : Bool) (bufsize : Nat)
    (hfit : sp = true → PayloadFits h x bufsize) :
    ∃ c, q_remove_head h head sp bufsize = .ok ⟨list_del_init h x, x, c⟩ :=
  q.isList.remove_head_cons sp bufsize hfit

/-- On a non-empty queue `q_remove_tail` unlinks and returns the last element,
provided that the payload fits the output buffer when there is one. -/
theorem q_remove_tail_concat {h : Heap} {head x : Ptr} {xs : List Ptr}
    (q : IsQueue h head (xs ++ [x])) (sp : Bool) (bufsize : Nat)
    (hfit : sp = true → PayloadFits h x bufsize) :
    ∃ c, q_remove_tail h head sp bufsize = .ok ⟨list_del_init h x, x, c⟩ :=
  q.isList.remove_tail_concat sp bufsize hfit

theorem q_remove_tail_nil {h : Heap} {head : Ptr} (q : IsQueue h head []) (sp : Bool)
    (bufsize : Nat) : q_remove_tail h head sp bufsize = .ok ⟨h, 0, none⟩ :=
  q.isList.remove_tail_nil sp bufsize

theorem q_size_loop_linked {h : Heap} {head : Ptr} : ∀ {xs : List Ptr} {a : Ptr} (c fuel : Nat),
    Linked h a xs head → head ∉ xs → xs.length < fuel → c + xs.length < 2147483648 →
    q_size_loop h head fuel (h.next a) c = .ok (c + xs.length)
  | [], a, c, fuel, hl, _, hf, _ => by
    simp only [Linked] at hl
    obtain ⟨f, rfl⟩ : ∃ f, fuel = f + 1 := ⟨fuel - 1, by simp at hf; omega⟩
    simp [q_size_loop, hl.1]
  | x :: xs, a, c, fuel, hl, hh, hf, hb => by
    simp only [Linked] at hl
    simp only [List.mem_cons, not_or] at hh
    simp only [List.length_cons] at hb hf
    obtain ⟨f, rfl⟩ : ∃ f, fuel = f + 1 := ⟨fuel - 1, by omega⟩
    have ih := q_size_loop_linked (c + 1) f hl.2 hh.2 (by omega) (by omega)
    have hc : c + 1 < 2147483648 := by omega
    simp only [q_size_loop, hl.1.1, Ne.symm hh.1, if_false, if_pos hc, ih, List.length_cons]
    congr 1; omega

/-- With enough fuel `q_size` returns the number of elements of a list that
an `int` can count. -/
theorem q_size_eq {h : Heap} {head : Ptr} {xs : List Ptr} (q : IsList h head xs) {fuel : Nat}
    (hf : xs.length < fuel) (hb : xs.length < 2147483648) :
    q_size fuel h head = .ok xs.length := by
  unfold q_size
  rw [q.list_empty_decide]
  by_cases hxs : xs = []
  · subst hxs; simp
  · have := q_size_loop_linked 0 fuel q.2.2.2.1 (List.nodup_cons.1 q.2.1).1 hf (by omega)
    simp [q.1, hxs, this]

/-- What `q_remove_head` did when it returned from a list whose first element
is `x`: it unlinked `x` and returned it. -/
theorem q_remove_head_returned {h : Heap} {p x : Ptr} (hp : p ≠ 0) (hx : h.next p = x)
    (hxp : x ≠ p) {sp : Bool} {bufsize : Nat} {r : Removed}
    (hr : q_remove_head h p sp bufsize = .ok r) : r.heap = list_del_init h x ∧ r.elem = x := by
  unfold q_remove_head at hr
  rw [if_neg (by simp [list_empty, hp, hx, hxp])] at hr
  simp only [hx, list_del_init_value] at hr
  cases sp with
  | false =>
    simp only [Bool.false_eq_true, if_false] at hr
    injection hr with hr
    subst hr; exact ⟨rfl, rfl⟩
  | true =>
    simp only [if_true] at hr
    cases hv : h.value x with
    | none => rw [hv] at hr; exact Except.noConfusion hr
    | some v =>
      rw [hv] at hr
      by_cases hle : v.length + 1 ≤ bufsize
      · simp only [if_pos hle] at hr
        injection hr with hr
        subst hr; exact ⟨rfl, rfl⟩
      · simp only [if_neg hle] at hr
        exact Except.noConfusion hr

theorem IsList.remove_head_returned {h : Heap} {head x : Ptr} {xs : List Ptr}
    (q : IsList h head (x :: xs)) {sp : Bool} {bufsize : Nat} {r : Removed}
    (hr : q_remove_head h head sp bufsize = .ok r) :
    r.heap = list_del_init h x ∧ r.elem = x := by
  refine q_remove_head_returned q.1 q.2.2.2.1.1.1 ?_ hr
  rintro rfl
  exact (List.nodup_cons.1 q.2.1).1 (by simp)

theorem IsList.remove_tail_returned {h : Heap} {head x : Ptr} {xs : List Ptr}
    (q : IsList h head (xs ++ [x])) {sp : Bool} {bufsize : Nat} {r : Removed}
    (hr : q_remove_tail h head sp bufsize = .ok r) :
    r.heap = list_del_init h x ∧ r.elem = x := by
  obtain ⟨h0, nd, hz, hl, hlive, hel⟩ := q
  rw [Linked.append_iff] at hl
  obtain ⟨hl1, hl2⟩ := hl
  simp only [Linked] at hl2
  have hpm := Linked.prev_mem hl1
  have hcp := Linked.circ_prev hl1 x (by simp)
  have hp0 : h.prev x ≠ 0 := by
    intro e; rw [e] at hpm
    rcases List.mem_cons.1 hpm with e' | hm
    · exact h0 e'.symm
    · exact hz (List.mem_append_left _ hm)
  have hpx : x ≠ h.prev x := by
    intro e; rw [← e] at hpm
    have := (List.perm_append_singleton x (head :: xs)).nodup_iff.1 (by simpa using nd)
    exact (List.nodup_cons.1 this).1 hpm
  unfold q_remove_tail at hr
  rw [if_neg h0, hl2.2] at hr
  exact q_remove_head_returned hp0 hcp hpx hr

theorem setLive_cancel {h : Heap} {e : Ptr} (hfresh : h.live e = false) :
    (h.setLive e true).setLive e false = h := by
  apply Heap.ext_fields <;> intro p
  · rfl
  · rfl
  · rfl
  · show (if p = e then false else if p = e then true else h.live p) = h.live p
    by_cases hp : p = e
    · rw [if_pos hp, hp, hfresh]
    · rw [if_neg hp, if_neg hp]

/-- An insert on a well-linked list, the allocator behaving like `malloc`:
either it returns false and the heap is as it was, or it returns true and the
new element is linked in front. -/
theorem IsList.insert_head_cases {h : Heap} {head : Ptr} {xs : List Ptr} (q : IsList h head xs)
    (s : Option String) (m : Option Ptr) (mv : Bool) (hm : FreshIn h m) :
    ((q_insert_head h head s m mv).2 = false ∧ (q_insert_head h head s m mv).1 = h) ∨
      ∃ e, m = some e ∧ (q_insert_head h head s m mv).2 = true ∧
        IsList (q_insert_head h head s m mv).1 head (e :: xs) := by
  cases s with
  | none => exact Or.inl ⟨rfl, rfl⟩
  | some str =>
    cases m with
    | none => left; simp [q_insert_head, gen_element, q.1]
    | some e =>
      obtain ⟨he, hfresh⟩ := hm
      rcases gen_element_cases h str e mv with hg | ⟨pv, hg⟩
      · left; simp [q_insert_head, hg, q.1, setLive_cancel hfresh]
      · right
        refine ⟨e, rfl, ?_, ?_⟩
        · simp [q_insert_head, hg, q.1, he]
        · have := q.add_head pv he hfresh
          simpa [q_insert_head, hg, q.1, he] using this

/-- An insert on a well-linked list, the allocator behaving like `malloc`:
either it returns false and the heap is as it was, or it returns true and the
new element is linked at the back. -/
theorem IsList.insert_tail_cases {h : Heap} {head : Ptr} {xs : List Ptr} (q : IsList h head xs)
    (s : Option String) (m : Option Ptr) (mv : Bool) (hm : FreshIn h m) :
    ((q_insert_tail h head s m mv).2 = false ∧ (q_insert_tail h head s m mv).1 = h) ∨
      ∃ e, m = some e ∧ (q_insert_tail h head s m mv).2 = true ∧
        IsList (q_insert_tail h head s m mv).1 head (xs ++ [e]) := by
  cases s with
  | none => exact Or.inl ⟨rfl, rfl⟩
  | some str =>
    cases m with
    | none => left; simp [q_insert_tail, gen_element, q.1]
    | some e =>
      obtain ⟨he, hfresh⟩ := hm
      rcases gen_element_cases h str e mv with hg | ⟨pv, hg⟩
      · left; simp [q_insert_tail, hg, q.1, setLive_cancel hfresh]
      · right
        refine ⟨e, rfl, ?_, ?_⟩
        · simp [q_insert_tail, hg, q.1, he]
        · have := q.add_tail pv he hfresh
          simpa [q_insert_tail, hg, q.1, he] using this

/-- One admissible call on a well-linked list returns and leaves a well-linked
list. -/
theorem Call.run_isList {h : Heap} {head : Ptr} {xs : List Ptr} (q : IsList h head xs)
    (c : Call) (hc : c.admissible h head) : ∃ k ys, c.run h head = .ok k ∧ IsList k head ys := by
  cases c with
  | insert_head s m mv =>
    rcases q.insert_head_cases s m mv hc with ⟨_, hk⟩ | ⟨e, _, _, hk⟩
    · exact ⟨_, xs, rfl, by rw [hk]; exact q⟩
    · exact ⟨_, e :: xs, rfl, hk⟩
  | insert_tail s m mv =>
    rcases q.insert_tail_cases s m mv hc with ⟨_, hk⟩ | ⟨e, _, _, hk⟩
    · exact ⟨_, xs, rfl, by rw [hk]; exact q⟩
    · exact ⟨_, xs ++ [e], rfl, hk⟩
  | remove_head sp bufsize =>
    cases xs with
    | nil => exact ⟨h, [], by simp [Call.run, q.remove_head_nil], q⟩
    | cons x xs =>
      have hx : h.next head = x := q.2.2.2.1.1.1
      have hxh : x ≠ head := by
        rintro rfl
        exact (List.nodup_cons.1 q.2.1).1 (by simp)
      obtain ⟨c, hc⟩ := q.remove_head_cons sp bufsize
        (fun hsp => hx ▸ hc hsp (by rw [hx]; exact hxh))
      exact ⟨list_del_init h x, xs, by simp [Call.run, hc], @IsList.unlink_elem h head x [] xs q⟩
  | remove_tail sp bufsize =>
    rcases List.eq_nil_or_concat xs with rfl | ⟨l, x, rfl⟩
    · exact ⟨h, [], by simp [Call.run, q.remove_tail_nil], q⟩
    · rw [List.concat_eq_append] at q
      obtain ⟨hx, hxh⟩ := q.prev_head
      obtain ⟨c, hc⟩ := q.remove_tail_concat sp bufsize
        (fun hsp => hx ▸ hc hsp (by rw [hx]; exact hxh))
      refine ⟨list_del_init h x, l, by simp [Call.run, hc], ?_⟩
      have := @IsList.unlink_elem h head x l [] q
      simpa using this

theorem q_insert_tail_live (h : Heap) {head : Ptr} (s : String) {e : Ptr}
    (hs : s.length + 1 < 2147483648) (hh : head ≠ 0)
    (he : e ≠ 0) (p : Ptr) : (q_insert_tail h head (some s) (some e) true).1.live p =
      if p = e then true else h.live p := by
  rw [q_insert_tail_ok h s hs hh he]; rfl

theorem q_insert_head_live (h : Heap) {head : Ptr} (s : String) {e : Ptr}
    (hs : s.length + 1 < 2147483648) (hh : head ≠ 0)
    (he : e ≠ 0) (p : Ptr) : (q_insert_head h head (some s) (some e) true).1.live p =
      if p = e then true else h.live p := by
  rw [q_insert_head_ok h s hs hh he]; rfl

theorem insert_tail_each_cons (head : Ptr) (h : Heap) (s : String) (e : Ptr)
    (rest : List (String × Ptr)) : insert_tail_each head h ((s, e) :: rest) =
      ((insert_tail_each head (q_insert_tail h head (some s) (some e) true).1 rest).1,
        (q_insert_tail h head (some s) (some e) true).2 ::
          (insert_tail_each head (q_insert_tail h head (some s) (some e) true).1 rest).2) := rfl

/-- Inserting a list of strings at the tail appends the new elements in order. -/
theorem insert_tail_each_spec {head : Ptr} : ∀ (xs : List String) (es : List Ptr) (h : Heap)
    (ys : List Ptr), IsQueue h head ys → es.length = xs.length → es.Nodup →
    (∀ e ∈ es, e ≠ 0 ∧ h.live e = false) → (∀ s ∈ xs, s.length + 1 < 2147483648) →
    IsQueue (insert_tail_each head h (xs.zip es)).1 head (ys ++ es) ∧
      (insert_tail_each head h (xs.zip es)).2 = List.replicate xs.length true ∧
      payloads (insert_tail_each head h (xs.zip es)).1 es = xs.map some ∧
      ∀ p, p ∉ es → (insert_tail_each head h (xs.zip es)).1.value p = h.value p
  | [], [], h, ys, q, _, _, _, _ => by simpa [insert_tail_each, payloads] using q
  | [], _ :: _, _, _, _, hlen, _, _, _ => by simp at hlen
  | _ :: _, [], _, _, _, hlen, _, _, _ => by simp at hlen
  | s :: xs, e :: es, h, ys, q, hlen, nd, hf, hs => by
    have he := hf e (List.mem_cons_self _ _)
    have hs0 := hs s (List.mem_cons_self _ _)
    obtain ⟨q1, hv1, hfr1⟩ := q.after_insert_tail s hs0 he.1 he.2
    rw [List.nodup_cons] at nd
    have hf1 : ∀ e' ∈ es, e' ≠ 0 ∧
        (q_insert_tail h head (some s) (some e) true).1.live e' = false := by
      intro e' he'
      have hne : e' ≠ e := fun c => nd.1 (c ▸ he')
      rw [q_insert_tail_live h s hs0 q.1 he.1, if_neg hne]
      exact hf e' (List.mem_cons_of_mem _ he')
    obtain ⟨q2, hr2, hp2, hfr2⟩ := insert_tail_each_spec xs es _ (ys ++ [e]) q1
      (by simpa using hlen) nd.2 hf1
      (fun t ht => hs t (List.mem_cons_of_mem _ ht))
    have hret : (q_insert_tail h head (some s) (some e) true).2 = true := by
      rw [q_insert_tail_ok h s hs0 q.1 he.1]
    have hz : (s :: xs).zip (e :: es) = (s, e) :: xs.zip es := rfl
    rw [hz, insert_tail_each_cons]
    refine ⟨by simpa using q2, ?_, ?_, ?_⟩
    · show _ :: _ = _
      rw [hr2, hret]; rfl
    · show _ :: List.map _ es = _
      rw [hfr2 e nd.1, hv1]
      exact congrArg _ hp2
    · intro p hp
      simp only [List.mem_cons, not_or] at hp
      rw [hfr2 p hp.2, hfr1 p hp.1]

theorem insert_head_each_cons (head : Ptr) (h : Heap) (s : String) (e : Ptr)
    (rest : List (String × Ptr)) : insert_head_each head h ((s, e) :: rest) =
      ((insert_head_each head (q_insert_head h head (some s) (some e) true).1 rest).1,
        (q_insert_head h head (some s) (some e) true).2 ::
          (insert_head_each head (q_insert_head h head (some s) (some e) true).1 rest).2) := rfl

/-- Inserting a list of strings at the head prepends the new elements, the
last one inserted first. -/
theorem insert_head_each_spec {head : Ptr} : ∀ (xs : List String) (es : List Ptr) (h : Heap)
    (ys : List Ptr), IsQueue h head ys → es.length = xs.length → es.Nodup →
    (∀ e ∈ es, e ≠ 0 ∧ h.live e = false) → (∀ s ∈ xs, s.length + 1 < 2147483648) →
    IsQueue (insert_head_each head h (xs.zip es)).1 head (es.reverse ++ ys) ∧
      (insert_head_each head h (xs.zip es)).2 = List.replicate xs.length true ∧
      payloads (insert_head_each head h (xs.zip es)).1 es = xs.map some ∧
      ∀ p, p ∉ es → (insert_head_each head h (xs.zip es)).1.value p = h.value p
  | [], [], h, ys, q, _, _, _, _ => by simpa [insert_head_each, payloads] using q
  | [], _ :: _, _, _, _, hlen, _, _, _ => by simp at hlen
  | _ :: _, [], _, _, _, hlen, _, _, _ => by simp at hlen
  | s :: xs, e :: es, h, ys, q, hlen, nd, hf, hs => by
    have he := hf e (List.mem_cons_self _ _)
    have hs0 := hs s (List.mem_cons_self _ _)
    obtain ⟨q1, hv1, hfr1⟩ := q.after_insert_head s hs0 he.1 he.2
    rw [List.nodup_cons] at nd
    have hf1 : ∀ e' ∈ es, e' ≠ 0 ∧
        (q_insert_head h head (some s) (some e) true).1.live e' = false := by
      intro e' he'
      have hne : e' ≠ e := fun c => nd.1 (c ▸ he')
      rw [q_insert_head_live h s hs0 q.1 he.1, if_neg hne]
      exact hf e' (List.mem_cons_of_mem _ he')
    obtain ⟨q2, hr2, hp2, hfr2⟩ := insert_head_each_spec xs es _ (e :: ys) q1
      (by simpa using hlen) nd.2 hf1
      (fun t ht => hs t (List.mem_cons_of_mem _ ht))
    have hret : (q_insert_head h head (some s) (some e) true).2 = true := by
      rw [q_insert_head_ok h s hs0 q.1 he.1]
    have hz : (s :: xs).zip (e :: es) = (s, e) :: xs.zip es := rfl
    rw [hz, insert_head_each_cons]
    refine ⟨by simpa using q2, ?_, ?_, ?_⟩
    · show _ :: _ = _
      rw [hr2, hret]; rfl
    · show _ :: List.map _ es = _
      rw [hfr2 e nd.1, hv1]
      exact congrArg _ hp2
    · intro p hp
      simp only [List.mem_cons, not_or] at hp
      rw [hfr2 p hp.2, hfr1 p hp.1]

/-- Removing from the head as many times as a prefix is long returns that
prefix, element by element, and leaves the rest. -/
theorem remove_head_times_spec {head : Ptr} : ∀ (es : List Ptr) (h : Heap) (rest : List Ptr),
    IsQueue h head (es ++ rest) →
    ∃ k, remove_head_times head es.length h = .ok (k, es) ∧ IsQueue k head rest ∧
      k.value = h.value ∧ k.live = h.live
  | [], h, rest, q => ⟨h, rfl, q, rfl, rfl⟩
  | e :: es, h, rest, q => by
    obtain ⟨c, hc⟩ := q_remove_head_cons q false 0 (fun e => Bool.noConfusion e)
    have q1 := @IsQueue.unlink_node h head e [] (es ++ rest) q
    obtain ⟨k, hk, qk, hv, hl⟩ := remove_head_times_spec es _ rest q1
    refine ⟨k, ?_, qk, by rw [hv]; rfl, by rw [hl]; rfl⟩
    simp only [List.length_cons, remove_head_times, hc, hk]

/-- An insert that returns true received a string and both allocations. -/
theorem q_insert_head_true {h : Heap} {head : Ptr} {s : Option String} {m : Option Ptr}
    {mv : Bool} (hr : (q_insert_head h head s m mv).2 = true) :
    ∃ str e, s = some str ∧ m = some e ∧ mv = true ∧ e ≠ 0 := by
  cases s with
  | none => simp [q_insert_head] at hr
  | some str =>
    cases m with
    | none => by_cases hh : head = 0 <;> simp [q_insert_head, gen_element, hh] at hr
    | some e =>
      cases mv with
      | false => by_cases hh : head = 0 <;> simp [q_insert_head, gen_element, hh] at hr
      | true =>
        refine ⟨str, e, rfl, rfl, rfl, ?_⟩
        rintro rfl
        by_cases hh : head = 0 <;> by_cases hg : 2147483648 ≤ gen_len str <;>
          simp [q_insert_head, gen_element, hh, hg] at hr

theorem q_insert_tail_true {h : Heap} {head : Ptr} {s : Option String} {m : Option Ptr}
    {mv : Bool} (hr : (q_insert_tail h head s m mv).2 = true) :
    ∃ str e, s = some str ∧ m = some e ∧ mv = true ∧ e ≠ 0 := by
  cases s with
  | none => simp [q_insert_tail] at hr
  | some str =>
    cases m with
    | none => by_cases hh : head = 0 <;> simp [q_insert_tail, gen_element, hh] at hr
    | some e =>
      cases mv with
      | false => by_cases hh : head = 0 <;> simp [q_insert_tail, gen_element, hh] at hr
      | true =>
        refine ⟨str, e, rfl, rfl, rfl, ?_⟩
        rintro rfl
        by_cases hh : head = 0 <;> by_cases hg : 2147483648 ≤ gen_len str <;>
          simp [q_insert_tail, gen_element, hh, hg] at hr

/-! ## Positions in a queue -/

theorem nodeAt_mem {head : Ptr} : ∀ {xs : List Ptr} {i : Nat}, i < xs.length →
    nodeAt head xs i ∈ xs
  | [], _, hi => by simp at hi
  | x :: _, 0, _ => by simp [nodeAt]
  | _ :: xs, i + 1, hi => by
    simp only [nodeAt]
    exact List.mem_cons_of_mem _ (nodeAt_mem (by simpa using hi))

theorem nodeAt_ge {head : Ptr} : ∀ {xs : List Ptr} {i : Nat}, xs.length ≤ i →
    nodeAt head xs i = head
  | [], _, _ => by simp [nodeAt]
  | _ :: _, 0, hi => by simp at hi
  | _ :: xs, i + 1, hi => by
    simp only [nodeAt]
    exact nodeAt_ge (by simpa using hi)

theorem nodeAt_split {head : Ptr} : ∀ {xs : List Ptr} {i : Nat}, i < xs.length →
    xs = xs.take i ++ nodeAt head xs i :: xs.drop (i + 1)
  | [], _, hi => by simp at hi
  | x :: _, 0, _ => by simp [nodeAt]
  | x :: xs, i + 1, hi => by
    simp only [nodeAt, List.take_succ_cons, List.drop_succ_cons, List.cons_append]
    exact congrArg _ (nodeAt_split (by simpa using hi))

theorem Linked.next_first {h : Heap} {head a : Ptr} {xs : List Ptr} (hl : Linked h a xs head) :
    h.next a = nodeAt head xs 0 := by
  cases xs with
  | nil => simp only [Linked] at hl; simp [nodeAt, hl.1]
  | cons x xs => simp only [Linked] at hl; simp [nodeAt, hl.1.1]

theorem Linked.next_nodeAt {h : Heap} {head : Ptr} : ∀ {xs : List Ptr} {a : Ptr} {i : Nat},
    Linked h a xs head → i < xs.length → h.next (nodeAt head xs i) = nodeAt head xs (i + 1)
  | [], _, _, _, hi => by simp at hi
  | x :: xs, a, 0, hl, _ => by
    simp only [Linked] at hl
    simp only [nodeAt]
    exact Linked.next_first hl.2
  | x :: xs, a, i + 1, hl, hi => by
    simp only [Linked] at hl
    simp only [nodeAt]
    exact Linked.next_nodeAt hl.2 (by simpa using hi)

/-- The two-pointer loop of `q_delete_mid` stops with `*indir` at position
`n / 2`. -/
theorem q_delete_mid_loop_spec {h : Heap} {head : Ptr} {xs : List Ptr}
    (q : IsQueue h head xs) : ∀ (fuel k : Nat) (indir : Ptr),
    h.next indir = nodeAt head xs k → 2 * k ≤ xs.length → xs.length / 2 - k < fuel →
    ∃ r, q_delete_mid_loop h head fuel indir (nodeAt head xs (2 * k)) = .ok r ∧
      h.next r = nodeAt head xs (xs.length / 2)
  | 0, _, _, _, _, hf => by simp at hf
  | fuel + 1, k, indir, hi, hk, hf => by
    have hl := q.2.2.2.1
    have hnd := (List.nodup_cons.1 q.2.1).1
    have hne : ∀ i, i < xs.length → nodeAt head xs i ≠ head := by
      intro i hi' e
      exact hnd (e ▸ nodeAt_mem hi')
    by_cases hlt : 2 * k + 1 < xs.length
    · have h1 := hne (2 * k) (by omega)
      have h2 : h.next (nodeAt head xs (2 * k)) = nodeAt head xs (2 * k + 1) :=
        Linked.next_nodeAt hl (by omega)
      have h3 := hne (2 * k + 1) hlt
      have h4 : h.next (nodeAt head xs (2 * k + 1)) = nodeAt head xs (2 * (k + 1)) :=
        Linked.next_nodeAt hl hlt
      have h5 : h.next (nodeAt head xs k) = nodeAt head xs (k + 1) :=
        Linked.next_nodeAt hl (by omega)
      obtain ⟨r, hr, hr'⟩ := q_delete_mid_loop_spec q fuel (k + 1) (h.next indir)
        (by rw [hi, h5]) (by omega) (by omega)
      refine ⟨r, ?_, hr'⟩
      simp only [q_delete_mid_loop, h2, ne_eq, h1, h3, not_false_eq_true, and_self, if_true, h4]
      exact hr
    · have hk2 : xs.length / 2 = k := by omega
      refine ⟨indir, ?_, by rw [hi, hk2]⟩
      by_cases he : 2 * k = xs.length
      · have : nodeAt head xs (2 * k) = head := nodeAt_ge (by omega)
        simp [q_delete_mid_loop, this]
      · have h2 : h.next (nodeAt head xs (2 * k)) = nodeAt head xs (2 * k + 1) :=
          Linked.next_nodeAt hl (by omega)
        have : nodeAt head xs (2 * k + 1) = head := nodeAt_ge (by omega)
        simp [q_delete_mid_loop, h2, this]

/-- Releasing a node that is not part of the queue keeps the queue. -/
theorem IsQueue.release {h : Heap} {head : Ptr} {xs : List Ptr} (q : IsQueue h head xs)
    {x : Ptr} (hx : x ∉ head :: xs) :
    IsQueue ((h.setValue x none).setLive x false) head xs := by
  obtain ⟨h0, nd, hz, hl, hlive, hval, hel⟩ := q
  simp only [List.mem_cons, not_or] at hx
  refine ⟨h0, nd, hz, Linked.congr_heap hl (fun _ _ => rfl) (fun _ _ => rfl), ?_, ?_, ?_⟩
  · simp [Ne.symm hx.1, hlive]
  · simp [Ne.symm hx.1, hval]
  · intro y hy
    have : y ≠ x := fun e => hx.2 (e ▸ hy)
    simp [this, hel y hy]

/-- On a non-empty queue `q_delete_mid` unlinks and releases the element at
position `n / 2`. -/
theorem q_delete_mid_spec {h : Heap} {head : Ptr} {xs : List Ptr} (q : IsQueue h head xs)
    (hne : xs ≠ []) {fuel : Nat} (hf : xs.length / 2 < fuel) :
    ∃ k, q_delete_mid fuel h head = .ok (k, true) ∧
      IsQueue k head (xs.eraseIdx (xs.length / 2)) ∧
      (∀ p, p ≠ nodeAt head xs (xs.length / 2) → k.value p = h.value p ∧ k.live p = h.live p) ∧
      k.value (nodeAt head xs (xs.length / 2)) = none ∧
      k.live (nodeAt head xs (xs.length / 2)) = false := by
  have hpos : 0 < xs.length := List.length_pos.2 hne
  have hlt : xs.length / 2 < xs.length := by omega
  obtain ⟨r, hr, hr'⟩ := q_delete_mid_loop_spec q fuel 0 head (Linked.next_first q.2.2.2.1)
    (by omega) (by omega)
  have hfirst : nodeAt head xs (2 * 0) = h.next head := (Linked.next_first q.2.2.2.1).symm
  rw [hfirst] at hr
  have hmem : nodeAt head xs (xs.length / 2) ∈ xs := nodeAt_mem hlt
  have hv := (q.2.2.2.2.2.2 _ hmem).2
  obtain ⟨v, hv⟩ := Option.isSome_iff_exists.1 hv
  have hsplit := @nodeAt_split head xs (xs.length / 2) hlt
  have q' := q
  rw [hsplit] at q'
  have q1 := q'.unlink_node
  have hnd : nodeAt head xs (xs.length / 2) ∉
      head :: (xs.take (xs.length / 2) ++ xs.drop (xs.length / 2 + 1)) := by
    have nd := q'.2.1
    have := (@List.perm_middle _ (nodeAt head xs (xs.length / 2))
      (head :: xs.take (xs.length / 2)) (xs.drop (xs.length / 2 + 1))).nodup_iff.1
      (by simpa using nd)
    exact (List.nodup_cons.1 this).1
  have q2 := q1.release hnd
  rw [← List.eraseIdx_eq_take_drop_succ] at q2
  refine ⟨_, ?_, q2, ?_, ?_, ?_⟩
  · simp [q_delete_mid, q.list_empty_eq, q.1, hne, hr, hr', q_release_element, hv]
  · intro p hp
    simp [hp]
  · simp
  · simp

theorem walk_linked {step : Ptr → Ptr} {head : Ptr} : ∀ {xs : List Ptr} {fuel : Nat} {a : Ptr},
    head ∉ xs → xs.length < fuel → (∀ i, i < xs.length → step (nodeAt head xs i) =
      nodeAt head xs (i + 1)) → a = nodeAt head xs 0 → walk step head fuel a = xs
  | [], fuel, a, _, hf, _, ha => by
    obtain ⟨f, rfl⟩ : ∃ f, fuel = f + 1 := ⟨fuel - 1, by simp at hf; omega⟩
    simp [walk, ha, nodeAt]
  | x :: xs, fuel, a, hh, hf, hs, ha => by
    obtain ⟨f, rfl⟩ : ∃ f, fuel = f + 1 := ⟨fuel - 1, by simp at hf; omega⟩
    simp only [List.mem_cons, not_or] at hh
    simp only [nodeAt] at ha
    subst ha
    simp only [walk, Ne.symm hh.1, if_false]
    refine congrArg _ (walk_linked hh.2 (by simpa using hf) ?_ ?_)
    · intro i hi
      have := hs (i + 1) (by simpa using hi)
      simpa [nodeAt] using this
    · have := hs 0 (by simp)
      simpa [nodeAt] using this

/-- The forward traversal of a well-formed queue yields its nodes. -/
theorem IsQueue.forward_eq {h : Heap} {head : Ptr} {xs : List Ptr} (q : IsQueue h head xs)
    {fuel : Nat} (hf : xs.length < fuel) : q_forward fuel h head = xs :=
  walk_linked (List.nodup_cons.1 q.2.1).1 hf (fun _ hi => Linked.next_nodeAt q.2.2.2.1 hi)
    (Linked.next_first q.2.2.2.1)

theorem nodeAt_getElem? {head : Ptr} : ∀ {xs : List Ptr} {i : Nat}, i < xs.length →
    xs[i]? = some (nodeAt head xs i)
  | [], _, hi => by simp at hi
  | x :: _, 0, _ => by simp [nodeAt]
  | _ :: xs, i + 1, hi => by
    simp only [nodeAt, List.getElem?_cons_succ]
    exact nodeAt_getElem? (by simpa using hi)

/-! ## `q_swap` -/

theorem q_swap_body_next (h : Heap) {p a b : Ptr} (s q : Ptr) (hp : h.prev a = p)
    (hb : h.next a = b) (hap : a ≠ p) :
    (q_swap_body h a s).next q =
      if q = a then s else if q = b then a else if q = p then b else h.next q := by
  simp [q_swap_body, hp, hb, hap]

theorem q_swap_body_prev (h : Heap) {p a b : Ptr} (s q : Ptr) (hp : h.prev a = p)
    (hb : h.next a = b) (hap : a ≠ p) :
    (q_swap_body h a s).prev q =
      if q = s then a else if q = a then b else if q = b then p else h.prev q := by
  simp [q_swap_body, hp, hb, hap]

theorem q_swap_body_value (h : Heap) (a s : Ptr) : (q_swap_body h a s).value = h.value := rfl

theorem q_swap_body_live (h : Heap) (a s : Ptr) : (q_swap_body h a s).live = h.live := rfl

theorem swap_pairs_spec_length : ∀ xs : List Ptr, (swap_pairs_spec xs).length = xs.length
  | [] => rfl
  | [_] => rfl
  | _ :: _ :: rest => by simp [swap_pairs_spec, swap_pairs_spec_length rest]

theorem swap_pairs_spec_perm : ∀ xs : List Ptr, (swap_pairs_spec xs).Perm xs
  | [] => List.Perm.refl _
  | [_] => List.Perm.refl _
  | a :: b :: rest =>
    (List.Perm.swap a b _).trans (((swap_pairs_spec_perm rest).cons b).cons a)

/-- A segment that hung after `b` hangs after `a` once `a` has taken the place
of `b` in front of it. -/
theorem Linked.relink {h k : Heap} {a b head : Ptr} : ∀ {rest : List Ptr},
    Linked h b rest head → k.next a = h.next b → k.prev (h.next b) = a →
    (∀ q ∈ rest, k.next q = h.next q) →
    (∀ q ∈ rest ++ [head], q ≠ h.next b → k.prev q = h.prev q) →
    (rest ++ [head]).Nodup → Linked k a rest head
  | [], hl, h1, h2, _, _, _ => by
    simp only [Linked] at hl ⊢
    rw [h1, hl.1]
    rw [hl.1] at h2
    exact ⟨rfl, h2⟩
  | s :: r, hl, h1, h2, h3, h4, nd => by
    simp only [Linked] at hl
    show (_ ∧ _) ∧ _
    rw [hl.1.1] at h1 h2 h4
    simp only [List.cons_append, List.nodup_cons] at nd
    refine ⟨⟨h1, h2⟩, Linked.congr_heap hl.2 h3 ?_⟩
    intro q hq
    exact h4 q (List.mem_cons_of_mem _ hq) (fun e => nd.1 (e ▸ hq))

/-- The loop of `q_swap`, started on the first node of a segment `rest` that
hangs after `p`, exchanges the nodes of `rest` pairwise and touches nothing
else. -/
theorem q_swap_loop_spec {head : Ptr} : ∀ (n : Nat) (rest : List Ptr) (p : Ptr) (h : Heap)
    (fuel : Nat), rest.length ≤ n → Linked h p rest head → (p :: rest).Nodup → head ∉ rest →
    rest.length / 2 < fuel →
    ∃ k, q_swap_loop head fuel h (nodeAt head rest 0) (h.next (nodeAt head rest 0)) = .ok k ∧
      Linked k p (swap_pairs_spec rest) head ∧
      (∀ q, q ∉ p :: rest → k.next q = h.next q) ∧
      (∀ q, q ∉ rest ++ [head] → k.prev q = h.prev q) ∧ k.value = h.value ∧ k.live = h.live
  | _, [], p, h, fuel, _, hl, _, _, hf => by
    obtain ⟨f, rfl⟩ : ∃ f, fuel = f + 1 := ⟨fuel - 1, by omega⟩
    exact ⟨h, by simp [q_swap_loop, nodeAt], hl, fun _ _ => rfl, fun _ _ => rfl, rfl, rfl⟩
  | _, [a], p, h, fuel, _, hl, _, _, hf => by
    obtain ⟨f, rfl⟩ : ∃ f, fuel = f + 1 := ⟨fuel - 1, by omega⟩
    have hl' := hl
    simp only [Linked] at hl'
    exact ⟨h, by simp [q_swap_loop, nodeAt, hl'.2.1], hl, fun _ _ => rfl, fun _ _ => rfl,
      rfl, rfl⟩
  | 0, _ :: _ :: _, _, _, _, hlen, _, _, _, _ => by simp at hlen
  | n + 1, a :: b :: rest, p, h, fuel, hlen, hl, nd, hh, hf => by
    obtain ⟨f, rfl⟩ : ∃ f, fuel = f + 1 := ⟨fuel - 1, by omega⟩
    simp only [Linked] at hl
    obtain ⟨⟨hpa, hap⟩, ⟨hab, hba⟩, hlr⟩ := hl
    simp only [List.nodup_cons, List.mem_cons, not_or] at nd hh
    obtain ⟨⟨p_a, p_b, p_r⟩, ⟨a_b, a_r⟩, b_r, ndr⟩ := nd
    obtain ⟨hd_a, hd_b, hd_r⟩ := hh
    have hs : h.next b = nodeAt head rest 0 := Linked.next_first hlr
    have hsm : h.next b ∈ rest ++ [head] := Linked.next_mem hlr
    have ndrh : (rest ++ [head]).Nodup :=
      (List.perm_append_singleton _ _).nodup_iff.2 (List.nodup_cons.2 ⟨hd_r, ndr⟩)
    have hn6 := fun q => q_swap_body_next h (h.next b) q hap hab (Ne.symm p_a)
    have hp6 := fun q => q_swap_body_prev h (h.next b) q hap hab (Ne.symm p_a)
    have a_s : a ≠ h.next b := by
      intro e; rw [← e] at hsm
      simp only [List.mem_append, List.mem_singleton] at hsm
      rcases hsm with hm | hm
      · exact a_r hm
      · exact hd_a hm.symm
    have b_s : b ≠ h.next b := by
      intro e; rw [← e] at hsm
      simp only [List.mem_append, List.mem_singleton] at hsm
      rcases hsm with hm | hm
      · exact b_r hm
      · exact hd_b hm.symm
    have hl6 : Linked (q_swap_body h a (h.next b)) a rest head := by
      refine Linked.relink hlr ?_ ?_ ?_ ?_ ndrh
      · rw [hn6]; simp
      · rw [hp6]; simp
      · intro q hq
        have q_a : q ≠ a := fun e => a_r (e ▸ hq)
        have q_b : q ≠ b := fun e => b_r (e ▸ hq)
        have q_p : q ≠ p := fun e => p_r (e ▸ hq)
        rw [hn6]; simp [q_a, q_b, q_p]
      · intro q hq q_s
        have q_a : q ≠ a := by
          rintro rfl
          simp only [List.mem_append, List.mem_singleton] at hq
          rcases hq with hm | hm
          · exact a_r hm
          · exact hd_a hm.symm
        have q_b : q ≠ b := by
          rintro rfl
          simp only [List.mem_append, List.mem_singleton] at hq
          rcases hq with hm | hm
          · exact b_r hm
          · exact hd_b hm.symm
        rw [hp6]; simp [q_a, q_b, q_s]
    obtain ⟨k, hk, hlk, hnk, hpk, hvk, hlvk⟩ := q_swap_loop_spec n rest a
      (q_swap_body h a (h.next b)) f (by simp at hlen; omega) hl6
      (List.nodup_cons.2 ⟨a_r, ndr⟩) hd_r (by simp at hf; omega)
    refine ⟨k, ?_, ?_, ?_, ?_, by rw [hvk]; rfl, by rw [hlvk]; rfl⟩
    · simp only [nodeAt, q_swap_loop, hab, ne_eq, Ne.symm hd_a, Ne.symm hd_b,
        not_false_eq_true, and_self, if_true]
      rw [hs] at hk ⊢
      exact hk
    · show (_ ∧ _) ∧ (_ ∧ _) ∧ _
      have b_ar : b ∉ a :: rest := by
        simp only [List.mem_cons, not_or]; exact ⟨Ne.symm a_b, b_r⟩
      have p_ar : p ∉ a :: rest := by
        simp only [List.mem_cons, not_or]; exact ⟨p_a, p_r⟩
      have a_rh : a ∉ rest ++ [head] := by
        simp only [List.mem_append, List.mem_singleton, not_or]; exact ⟨a_r, Ne.symm hd_a⟩
      have b_rh : b ∉ rest ++ [head] := by
        simp only [List.mem_append, List.mem_singleton, not_or]; exact ⟨b_r, Ne.symm hd_b⟩
      refine ⟨⟨?_, ?_⟩, ⟨?_, ?_⟩, hlk⟩
      · rw [hnk p p_ar, hn6]; simp [p_a, p_b]
      · rw [hpk b b_rh, hp6]; simp [b_s, Ne.symm a_b]
      · rw [hnk b b_ar, hn6]; simp [Ne.symm a_b]
      · rw [hpk a a_rh, hp6]; simp [a_s]
    · intro q hq
      simp only [List.mem_cons, not_or] at hq
      obtain ⟨q_p, q_a, q_b, q_r⟩ := hq
      rw [hnk q (by simp only [List.mem_cons, not_or]; exact ⟨q_a, q_r⟩), hn6]
      simp [q_a, q_b, q_p]
    · intro q hq
      simp only [List.cons_append, List.mem_cons, not_or] at hq
      obtain ⟨q_a, q_b, q_rh⟩ := hq
      have q_s : q ≠ h.next b := fun e => q_rh (e ▸ hsm)
      rw [hpk q q_rh, hp6]
      simp [q_a, q_b, q_s]

theorem swap_pairs_spec_get : ∀ (xs : List Ptr) (i : Nat), 2 * i + 1 < xs.length →
    (swap_pairs_spec xs)[2 * i]? = xs[2 * i + 1]? ∧ (swap_pairs_spec xs)[2 * i + 1]? = xs[2 * i]?
  | [], _, hi => by simp at hi
  | [_], _, hi => by simp at hi
  | a :: b :: rest, 0, _ => by simp [swap_pairs_spec]
  | a :: b :: rest, i + 1, hi => by
    have ih := swap_pairs_spec_get rest i (by simp at hi; omega)
    have e1 : 2 * (i + 1) = 2 * i + 1 + 1 := by ring
    have e2 : 2 * (i + 1) + 1 = 2 * i + 1 + 1 + 1 := by ring
    rw [e2, e1]
    simp only [swap_pairs_spec, List.getElem?_cons_succ]
    exact ih

theorem swap_pairs_spec_last : ∀ (xs : List Ptr), xs.length % 2 = 1 →
    (swap_pairs_spec xs)[xs.length - 1]? = xs[xs.length - 1]?
  | [], hi => by simp at hi
  | [_], _ => rfl
  | a :: b :: rest, hi => by
    have hodd : rest.length % 2 = 1 := by
      simp only [List.length_cons] at hi; omega
    have ih := swap_pairs_spec_last rest hodd
    have e : (a :: b :: rest).length - 1 = (rest.length - 1) + 1 + 1 := by
      simp only [List.length_cons]; omega
    rw [e]
    simp only [swap_pairs_spec, List.getElem?_cons_succ]
    exact ih

/-- On a well-formed queue `q_swap` returns, exchanges the nodes pairwise and
touches nothing outside the queue. -/
theorem q_swap_spec {h : Heap} {head : Ptr} {xs : List Ptr} (q : IsQueue h head xs)
    {fuel : Nat} (hf : xs.length / 2 < fuel) :
    ∃ k, q_swap fuel h head = .ok k ∧ IsQueue k head (swap_pairs_spec xs) ∧
      (∀ p, p ∉ head :: xs → k.next p = h.next p ∧ k.prev p = h.prev p) ∧
      k.value = h.value ∧ k.live = h.live ∧ (xs.length ≤ 1 → k = h) := by
  obtain ⟨h0, nd, hz, hl, hlive, hval, hel⟩ := q
  have hhd := (List.nodup_cons.1 nd).1
  match xs, hl with
  | [], hl =>
    simp only [Linked] at hl
    refine ⟨h, ?_, ⟨h0, nd, hz, hl, hlive, hval, hel⟩, fun _ _ => ⟨rfl, rfl⟩, rfl, rfl,
      fun _ => rfl⟩
    simp [q_swap, list_empty, hl.1]
  | [a], hl =>
    have hl' := hl
    simp only [Linked] at hl'
    refine ⟨h, ?_, ⟨h0, nd, hz, hl, hlive, hval, hel⟩, fun _ _ => ⟨rfl, rfl⟩, rfl, rfl,
      fun _ => rfl⟩
    simp [q_swap, list_empty, list_is_singular, hl'.1.1, hl'.2.2]
  | a :: b :: rest, hl =>
    obtain ⟨k, hk, hlk, hnk, hpk, hvk, hlvk⟩ :=
      q_swap_loop_spec (a :: b :: rest).length (a :: b :: rest) head h fuel (le_refl _) hl nd
        hhd hf
    have hl' := hl
    simp only [Linked] at hl'
    have hpm := Linked.prev_mem hl'.2.2
    have hne1 : h.next head ≠ head := by
      rw [hl'.1.1]; intro e; apply hhd; rw [← e]; simp
    have hne2 : h.prev head ≠ h.next head := by
      rw [hl'.1.1]; intro e; rw [e] at hpm
      have := (List.nodup_cons.1 (List.nodup_cons.1 nd).2).1
      exact this hpm
    have hperm := swap_pairs_spec_perm (a :: b :: rest)
    refine ⟨k, ?_, ⟨h0, ?_, ?_, hlk, ?_, ?_, ?_⟩, ?_, hvk, hlvk, ?_⟩
    · have e : h.next head = nodeAt head (a :: b :: rest) 0 := Linked.next_first hl
      simp only [q_swap, list_empty, list_is_singular, h0, hne1, hne2, decide_False,
        Bool.not_false, Bool.and_false, Bool.false_eq_true, or_self, if_false]
      rw [e]; exact hk
    · exact (List.Perm.cons head hperm).nodup_iff.2 nd
    · exact fun hm => hz (hperm.mem_iff.1 hm)
    · rw [hlvk]; exact hlive
    · rw [hvk]; exact hval
    · intro x hx
      rw [hlvk, hvk]
      exact hel x (hperm.mem_iff.1 hx)
    · intro p hp
      refine ⟨hnk p hp, hpk p ?_⟩
      simp only [List.mem_cons, List.mem_append, List.mem_singleton, not_or] at hp ⊢
      tauto
    · intro hle
      simp at hle

/-! ## `q_reverse` -/

theorem flipOn_congr {ns ms : List Ptr} (h : Heap) (hm : ∀ p, p ∈ ns ↔ p ∈ ms) :
    flipOn ns h = flipOn ms h := by
  apply Heap.ext_fields <;> intro p
  · show (if p ∈ ns then _ else _) = (if p ∈ ms then _ else _)
    simp only [hm p]
  · show (if p ∈ ns then _ else _) = (if p ∈ ms then _ else _)
    simp only [hm p]
  · rfl
  · rfl

theorem flipOn_flipOn {ns ms : List Ptr} (h : Heap) (hm : ∀ p, p ∈ ns ↔ p ∈ ms) :
    flipOn ms (flipOn ns h) = h := by
  apply Heap.ext_fields <;> intro p
  · show (if p ∈ ms then (if p ∈ ns then h.next p else h.prev p)
      else (if p ∈ ns then h.prev p else h.next p)) = h.next p
    by_cases hp : p ∈ ms <;> simp [hp, hm p]
  · show (if p ∈ ms then (if p ∈ ns then h.prev p else h.next p)
      else (if p ∈ ns then h.next p else h.prev p)) = h.prev p
    by_cases hp : p ∈ ms <;> simp [hp, hm p]
  · rfl
  · rfl

/-- One iteration of the loop of `q_reverse` flips one more node. -/
theorem flipOn_step (h : Heap) {done : List Ptr} {x : Ptr} (hx : x ∉ done) :
    ((flipOn done h).setNext x ((flipOn done h).prev x)).setPrev x (h.next x) =
      flipOn (done ++ [x]) h := by
  apply Heap.ext_fields <;> intro p
  · show (if p = x then (if x ∈ done then h.next x else h.prev x)
      else (if p ∈ done then h.prev p else h.next p)) =
      (if p ∈ done ++ [x] then h.prev p else h.next p)
    by_cases hp : p = x
    · subst hp; simp [hx]
    · simp [hp]
  · show (if p = x then h.next x else (if p ∈ done then h.next p else h.prev p)) =
      (if p ∈ done ++ [x] then h.next p else h.prev p)
    by_cases hp : p = x
    · subst hp; simp
    · simp [hp]
  · rfl
  · rfl

theorem q_reverse_loop_spec {h : Heap} {head : Ptr} {xs : List Ptr} (q : IsQueue h head xs) :
    ∀ (rest done : List Ptr) (fuel : Nat), xs = done ++ rest → rest.length < fuel →
    q_reverse_loop head fuel (flipOn done h) (nodeAt head rest 0)
      (h.next (nodeAt head rest 0)) = .ok (flipOn xs h, head, h.next head)
  | [], done, fuel, hxs, hf => by
    obtain ⟨f, rfl⟩ : ∃ f, fuel = f + 1 := ⟨fuel - 1, by simp at hf; omega⟩
    simp only [List.append_nil] at hxs
    subst hxs
    simp [q_reverse_loop, nodeAt]
  | x :: r, done, fuel, hxs, hf => by
    obtain ⟨f, rfl⟩ : ∃ f, fuel = f + 1 := ⟨fuel - 1, by simp at hf; omega⟩
    have nd := q.2.1
    have hl := q.2.2.2.1
    rw [hxs] at nd hl
    have hxh : x ≠ head := by
      intro e
      apply (List.nodup_cons.1 nd).1
      rw [e]; simp
    have hxd : x ∉ done := by
      have := (List.nodup_cons.1 nd).2
      have := (@List.perm_middle _ x done r).nodup_iff.1 this
      intro hm
      exact (List.nodup_cons.1 this).1 (List.mem_append_left _ hm)
    rw [Linked.append_iff] at hl
    have hnx : h.next x = nodeAt head r 0 := Linked.next_first hl.2
    have hnd' : nodeAt head r 0 ∉ done ++ [x] := by
      have nd2 := (List.nodup_cons.1 nd).2
      intro hm
      by_cases hr : 0 < r.length
      · have hmr : nodeAt head r 0 ∈ r := nodeAt_mem hr
        rw [List.nodup_append] at nd2
        rcases List.mem_append.1 hm with hm | hm
        · exact nd2.2.2 hm (List.mem_cons_of_mem _ hmr)
        · simp only [List.mem_singleton] at hm
          exact (List.nodup_cons.1 nd2.2.1).1 (hm ▸ hmr)
      · have : nodeAt head r 0 = head := nodeAt_ge (by omega)
        rw [this] at hm
        apply (List.nodup_cons.1 nd).1
        rcases List.mem_append.1 hm with hm | hm
        · exact List.mem_append_left _ hm
        · simp only [List.mem_singleton] at hm
          exact absurd hm.symm hxh
    have ih := q_reverse_loop_spec q r (done ++ [x]) f (by simp [hxs]) (by simp at hf; omega)
    simp only [nodeAt, q_reverse_loop, hxh, if_false]
    rw [flipOn_step h hxd]
    have e : (flipOn (done ++ [x]) h).next (h.next x) = h.next (nodeAt head r 0) := by
      rw [hnx]
      show (if nodeAt head r 0 ∈ done ++ [x] then _ else _) = _
      rw [if_neg hnd']
    rw [e, hnx]
    exact ih

/-- Flipping every node of a linked segment links it in the opposite order. -/
theorem Linked.flip_seg {h : Heap} {ns : List Ptr} : ∀ {xs : List Ptr} {a z : Ptr},
    Linked h a xs z → a ∈ ns → z ∈ ns → (∀ x ∈ xs, x ∈ ns) →
    Linked (flipOn ns h) z xs.reverse a
  | [], a, z, hl, ha, hz, _ => by
    simp only [Linked] at hl
    show (if z ∈ ns then h.prev z else h.next z) = a ∧
      (if a ∈ ns then h.next a else h.prev a) = z
    rw [if_pos hz, if_pos ha]
    exact ⟨hl.2, hl.1⟩
  | x :: xs, a, z, hl, ha, hz, hxs => by
    simp only [Linked] at hl
    have hx : x ∈ ns := hxs x (List.mem_cons_self _ _)
    rw [List.reverse_cons, Linked.append_iff]
    refine ⟨Linked.flip_seg hl.2 hx hz (fun y hy => hxs y (List.mem_cons_of_mem _ hy)), ?_⟩
    show (if x ∈ ns then h.prev x else h.next x) = a ∧
      (if a ∈ ns then h.next a else h.prev a) = x
    rw [if_pos hx, if_pos ha]
    exact ⟨hl.1.2, hl.1.1⟩

theorem IsQueue.flip_all {h : Heap} {head : Ptr} {xs : List Ptr} (q : IsQueue h head xs) :
    IsQueue (flipOn (head :: xs) h) head xs.reverse := by
  obtain ⟨h0, nd, hz, hl, hlive, hval, hel⟩ := q
  refine ⟨h0, ?_, ?_, ?_, hlive, hval, ?_⟩
  · exact (List.Perm.cons head (List.reverse_perm xs)).nodup_iff.2 nd
  · simpa using hz
  · exact Linked.flip_seg hl (List.mem_cons_self _ _) (List.mem_cons_self _ _)
      (fun x hx => List.mem_cons_of_mem _ hx)
  · intro x hx
    exact hel x (List.mem_reverse.1 hx)

/-- With enough fuel `q_reverse` exchanges `next` and `prev` in the header and
in every node of the queue, and changes nothing else. -/
theorem q_reverse_spec {h : Heap} {head : Ptr} {xs : List Ptr} (q : IsQueue h head xs)
    {fuel : Nat} (hf : xs.length < fuel) :
    q_reverse fuel h head = .ok (flipOn (head :: xs) h) := by
  have hl := q.2.2.2.1
  by_cases hxs : xs = []
  · subst hxs
    simp only [Linked] at hl
    have e : flipOn [head] h = h := by
      apply Heap.ext_fields <;> intro p
      · show (if p ∈ [head] then h.prev p else h.next p) = h.next p
        by_cases hp : p = head
        · subst hp; simp [hl.1, hl.2]
        · simp [hp]
      · show (if p ∈ [head] then h.next p else h.prev p) = h.prev p
        by_cases hp : p = head
        · subst hp; simp [hl.1, hl.2]
        · simp [hp]
      · rfl
      · rfl
    rw [e]
    simp [q_reverse, list_empty, hl.1]
  · have hloop := q_reverse_loop_spec q xs [] fuel rfl hf
    have e0 : flipOn [] h = h := by
      apply Heap.ext_fields <;> intro p <;> rfl
    rw [e0, ← Linked.next_first hl] at hloop
    have hhx : head ∉ xs := (List.nodup_cons.1 q.2.1).1
    have e1 : ((flipOn xs h).setNext head ((flipOn xs h).prev head)).setPrev head (h.next head) =
        flipOn (xs ++ [head]) h := flipOn_step h hhx
    have e2 : flipOn (xs ++ [head]) h = flipOn (head :: xs) h :=
      flipOn_congr h (fun p => by simp [or_comm])
    simp only [q_reverse, q.list_empty_eq, q.1, hxs, decide_False, Bool.false_eq_true, or_self,
      if_false, hloop]
    rw [e1, e2]

/-- The backward traversal of a well-formed queue yields its nodes in
reverse. -/
theorem IsQueue.backward_eq {h : Heap} {head : Ptr} {xs : List Ptr} (q : IsQueue h head xs)
    {fuel : Nat} (hf : xs.length < fuel) : q_backward fuel h head = xs.reverse := by
  have qf := q.flip_all
  have hlf := qf.2.2.2.1
  have hmem : ∀ p, p ∈ head :: xs → (flipOn (head :: xs) h).next p = h.prev p := by
    intro p hp
    show (if p ∈ head :: xs then _ else _) = _
    rw [if_pos hp]
  refine walk_linked (List.nodup_cons.1 qf.2.1).1 (by simpa using hf) ?_ ?_
  · intro i hi
    rw [← hmem _ (List.mem_cons_of_mem _ (List.mem_reverse.1 (nodeAt_mem hi)))]
    exact Linked.next_nodeAt hlf hi
  · rw [← hmem _ (List.mem_cons_self _ _)]
    exact Linked.next_first hlf

/-! ## `q_delete_dup` -/

/-- When the loop of `q_delete_dup` stands on a last element whose payload
equals the scratch buffer, it deletes that element and then reads the payload
of the header: the run does not return. -/
theorem q_delete_dup_loop_dup_at_end {head : Ptr} (fuel : Nat) (h : Heap) (s : String)
    (node : Ptr) (hv : h.value node = some s) (hn : node ≠ head) (hh : h.value head = none) :
    ∃ f, q_delete_dup_loop head fuel h (some s) node head = .error f := by
  cases fuel with
  | zero => exact ⟨.fuel, rfl⟩
  | succ f =>
    refine ⟨.badRead, ?_⟩
    simp [q_delete_dup_loop, hn, hv, q_release_element, hh, Ne.symm hn]

/-! ## The output buffer of `q_remove_head` -/

/-- With an output buffer `q_remove_head` stores the whole payload and a
terminator, whatever `bufsize` is. -/
theorem q_remove_head_copied {h : Heap} {head x : Ptr} {xs : List Ptr}
    (q : IsQueue h head (x :: xs)) {v : String} (hv : h.value x = some v) (bufsize : Nat) :
    copied_of (q_remove_head h head true bufsize) = some (v.data ++ [Char.ofNat 0]) := by
  have hx : h.next head = x := q.2.2.2.1.1.1
  by_cases hle : v.length + 1 ≤ bufsize <;>
    simp [q_remove_head, q.list_empty_eq, q.1, hx, hv, hle, copied_of]

/-- With an output buffer too small for the payload and its terminator
`q_remove_head` overruns it. -/
theorem q_remove_head_overrun {h : Heap} {head x : Ptr} {xs : List Ptr}
    (q : IsQueue h head (x :: xs)) {v : String} (hv : h.value x = some v) {bufsize : Nat}
    (hlt : bufsize < v.length + 1) :
    q_remove_head h head true bufsize = .error (.overrun (v.data ++ [Char.ofNat 0])) := by
  have hx : h.next head = x := q.2.2.2.1.1.1
  have hle : ¬ v.length + 1 ≤ bufsize := by omega
  simp [q_remove_head, q.list_empty_eq, q.1, hx, hv, hle]

/-! ## Failing inserts -/

theorem q_insert_head_null (k : Heap) (s : Option String) (m : Option Ptr) (mv : Bool) :
    q_insert_head k 0 s m mv = (k, false) := by
  cases s <;> simp [q_insert_head]

theorem q_insert_tail_null (k : Heap) (s : Option String) (m : Option Ptr) (mv : Bool) :
    q_insert_tail k 0 s m mv = (k, false) := by
  cases s <;> simp [q_insert_tail]

/-- An insert whose allocation fails returns false and leaves the heap as it
was. -/
theorem q_insert_head_alloc_fail {h : Heap} (head : Ptr) (s : Option String) {m : Option Ptr}
    {mv : Bool} (hm : FreshIn h m) (hfail : m = none ∨ mv = false) :
    q_insert_head h head s m mv = (h, false) := by
  cases s with
  | none => rfl
  | some str =>
    by_cases hh : head = 0
    · simp [q_insert_head, hh]
    · cases m with
      | none => simp [q_insert_head, gen_element, hh]
      | some e =>
        rcases hfail with hfail | hfail
        · exact absurd hfail (by simp)
        · subst hfail
          simp [q_insert_head, gen_element, hh, setLive_cancel hm.2]

theorem q_insert_tail_alloc_fail {h : Heap} (head : Ptr) (s : Option String) {m : Option Ptr}
    {mv : Bool} (hm : FreshIn h m) (hfail : m = none ∨ mv = false) :
    q_insert_tail h head s m mv = (h, false) := by
  cases s with
  | none => rfl
  | some str =>
    by_cases hh : head = 0
    · simp [q_insert_tail, hh]
    · cases m with
      | none => simp [q_insert_tail, gen_element, hh]
      | some e =>
        rcases hfail with hfail | hfail
        · exact absurd hfail (by simp)
        · subst hfail
          simp [q_insert_tail, gen_element, hh, setLive_cancel hm.2]

/-- An insert that returns false has left the heap as it was. -/
theorem q_insert_head_false {h : Heap} {head : Ptr} {s : Option String} {m : Option Ptr}
    {mv : Bool} (hm : FreshIn h m) (hh : head ≠ 0)
    (hs : ∀ str, s = some str → str.length + 1 < 2147483648)
    (hr : (q_insert_head h head s m mv).2 = false) :
    (q_insert_head h head s m mv).1 = h ∧ (s = none ∨ m = none ∨ mv = false) := by
  cases s with
  | none => exact ⟨rfl, Or.inl rfl⟩
  | some str =>
    cases m with
    | none => exact ⟨by rw [q_insert_head_alloc_fail head _ hm (Or.inl rfl)], Or.inr (Or.inl rfl)⟩
    | some e =>
      cases mv with
      | false =>
        exact ⟨by rw [q_insert_head_alloc_fail head _ hm (Or.inr rfl)], Or.inr (Or.inr rfl)⟩
      | true =>
        rw [q_insert_head_ok h str (hs str rfl) hh hm.1] at hr
        exact absurd hr (by simp)

theorem q_insert_tail_false {h : Heap} {head : Ptr} {s : Option String} {m : Option Ptr}
    {mv : Bool} (hm : FreshIn h m) (hh : head ≠ 0)
    (hs : ∀ str, s = some str → str.length + 1 < 2147483648)
    (hr : (q_insert_tail h head s m mv).2 = false) :
    (q_insert_tail h head s m mv).1 = h ∧ (s = none ∨ m = none ∨ mv = false) := by
  cases s with
  | none => exact ⟨rfl, Or.inl rfl⟩
  | some str =>
    cases m with
    | none => exact ⟨by rw [q_insert_tail_alloc_fail head _ hm (Or.inl rfl)], Or.inr (Or.inl rfl)⟩
    | some e =>
      cases mv with
      | false =>
        exact ⟨by rw [q_insert_tail_alloc_fail head _ hm (Or.inr rfl)], Or.inr (Or.inr rfl)⟩
      | true =>
        rw [q_insert_tail_ok h str (hs str rfl) hh hm.1] at hr
        exact absurd hr (by simp)

/-! ## Swapping twice -/

theorem swap_pairs_spec_twice : ∀ xs : List Ptr, swap_pairs_spec (swap_pairs_spec xs) = xs
  | [] => rfl
  | [_] => rfl
  | a :: b :: rest => by
    simp only [swap_pairs_spec]
    rw [swap_pairs_spec_twice rest]

/-! ## One iteration of the loop of `q_delete_dup` -/

theorem q_release_element_ok {h : Heap} {x : Ptr} {v : String} (hv : h.value x = some v) :
    q_release_element (list_del_init h x) x = .ok (released h x) := by
  simp [q_release_element, hv, released]

theorem q_release_element_bad {h : Heap} {x : Ptr} (hv : h.value x = none) :
    q_release_element (list_del_init h x) x = .error Fault.badRead := by
  simp [q_release_element, hv]

theorem released_value (h : Heap) (x p : Ptr) :
    (released h x).value p = if p = x then none else h.value p := rfl

/-- Unlinking and releasing an element of a well-formed queue leaves a
well-formed queue of the other elements. -/
theorem IsQueue.released_node {h : Heap} {head x : Ptr} {l1 l2 : List Ptr}
    (q : IsQueue h head (l1 ++ x :: l2)) : IsQueue (released h x) head (l1 ++ l2) := by
  have hnd : x ∉ head :: (l1 ++ l2) := by
    have := (@List.perm_middle _ x (head :: l1) l2).nodup_iff.1 (by simpa using q.2.1)
    simpa using (List.nodup_cons.1 this).1
  exact q.unlink_node.release hnd

theorem IsQueue.released_values {h : Heap} {head x : Ptr} {l1 l2 : List Ptr}
    (q : IsQueue h head (l1 ++ x :: l2)) {v : Ptr → String}
    (hv : ∀ p ∈ l1 ++ x :: l2, h.value p = some (v p)) :
    ∀ p ∈ l1 ++ l2, (released h x).value p = some (v p) := by
  intro p hp
  have hnd : x ∉ l1 ++ l2 := by
    have := (@List.perm_middle _ x l1 l2).nodup_iff.1 (List.nodup_cons.1 q.2.1).2
    exact (List.nodup_cons.1 this).1
  have hpx : p ≠ x := fun e => hnd (e ▸ hp)
  rw [released_value, if_neg hpx]
  apply hv
  simp only [List.mem_append, List.mem_cons] at hp ⊢
  tauto

theorem q_delete_dup_loop_new {head : Ptr} {h : Heap} {node : Ptr} {s v : String} (fuel : Nat)
    (next : Ptr) (hn : node ≠ head) (hv : h.value node = some v) (hs : s ≠ v)
    (hlen : ¬ 1024 < v.length + 1) :
    q_delete_dup_loop head (fuel + 1) h (some s) node next =
      q_delete_dup_loop head fuel h (some v) next (h.next next) := by
  simp [q_delete_dup_loop, hn, hv, hs, hlen]

theorem q_delete_dup_loop_overrun {head : Ptr} {h : Heap} {node : Ptr} {s v : String}
    (fuel : Nat) (next : Ptr) (hn : node ≠ head) (hv : h.value node = some v) (hs : s ≠ v)
    (hlen : 1024 < v.length + 1) :
    q_delete_dup_loop head (fuel + 1) h (some s) node next = .error Fault.overflow := by
  simp [q_delete_dup_loop, hn, hv, hs, hlen]

theorem q_delete_dup_loop_bad_next {head : Ptr} {h : Heap} {node : Ptr} {s : String}
    (fuel : Nat) {next : Ptr} (hn : node ≠ head) (hv : h.value node = some s)
    (hnext : (released h node).value next = none) :
    q_delete_dup_loop head (fuel + 1) h (some s) node next = .error Fault.badRead := by
  simp [q_delete_dup_loop, hn, hv, q_release_element_ok hv, hnext]

theorem q_delete_dup_loop_same {head : Ptr} {h : Heap} {node : Ptr} {s : String}
    (fuel : Nat) {next : Ptr} (hn : node ≠ head) (hv : h.value node = some s)
    (hnext : (released h node).value next = some s) :
    q_delete_dup_loop head (fuel + 1) h (some s) node next =
      q_delete_dup_loop head fuel (released h node) (some s) next
        ((released h node).next next) := by
  simp [q_delete_dup_loop, hn, hv, q_release_element_ok hv, hnext]

theorem q_delete_dup_loop_first_bad {head : Ptr} {h : Heap} {node : Ptr} {s w : String}
    (fuel : Nat) {next : Ptr} (hn : node ≠ head) (hv : h.value node = some s)
    (hnext : (released h node).value next = some w) (hw : s ≠ w)
    (hfd : (released h node).value ((released h node).prev next) = none) :
    q_delete_dup_loop head (fuel + 1) h (some s) node next = .error Fault.badRead := by
  simp [q_delete_dup_loop, hn, hv, q_release_element_ok hv, hnext, hw, q_release_element_bad hfd]

theorem q_delete_dup_loop_first {head : Ptr} {h : Heap} {node : Ptr} {s w u : String}
    (fuel : Nat) {next : Ptr} (hn : node ≠ head) (hv : h.value node = some s)
    (hnext : (released h node).value next = some w) (hw : s ≠ w)
    (hfd : (released h node).value ((released h node).prev next) = some u) :
    q_delete_dup_loop head (fuel + 1) h (some s) node next =
      q_delete_dup_loop head fuel (released (released h node) ((released h node).prev next))
        (some s) next
        ((released (released h node) ((released h node).prev next)).next next) := by
  simp [q_delete_dup_loop, hn, hv, q_release_element_ok hv, hnext, hw, q_release_element_ok hfd]

/-- The loop of `q_delete_dup`, started on the first node of `rest` in a
well-formed queue `kept ++ rest` with `s` in the scratch buffer, does what
`dedup_run` says. -/
theorem q_delete_dup_loop_sim {head : Ptr} (v : Ptr → String) :
    ∀ (rest kept : List Ptr) (k : Heap) (s : String) (fuel : Nat),
    IsQueue k head (kept ++ rest) → (∀ x ∈ kept ++ rest, k.value x = some (v x)) →
    rest.length < fuel →
    DupPost head v
      (q_delete_dup_loop head fuel k (some s) (nodeAt head rest 0)
        (k.next (nodeAt head rest 0)))
      (dedup_run v kept rest s) := by
  intro rest
  induction rest with
  | nil =>
    intro kept k s fuel q hv hf
    obtain ⟨f, rfl⟩ : ∃ f, fuel = f + 1 := ⟨fuel - 1, by simp at hf; omega⟩
    rw [List.append_nil] at q hv
    exact ⟨k, by simp [q_delete_dup_loop, nodeAt], q, hv⟩
  | cons x r ih =>
    intro kept k s fuel q hv hf
    obtain ⟨f, rfl⟩ : ∃ f, fuel = f + 1 := ⟨fuel - 1, by simp at hf; omega⟩
    have hf' : r.length < f := by simp at hf; omega
    have hxh : x ≠ head := by
      intro e; apply (List.nodup_cons.1 q.2.1).1; rw [← e]; simp
    have hvx : k.value x = some (v x) := hv x (by simp)
    have hl := q.2.2.2.1
    rw [Linked.append_iff] at hl
    have hnx : k.next x = nodeAt head r 0 := Linked.next_first hl.2
    have hnode : nodeAt head (x :: r) 0 = x := rfl
    rw [hnode]
    by_cases hs : s = v x
    · subst hs
      have q2 := q.released_node
      have hv2 := q.released_values hv
      cases r with
      | nil =>
        have hd : dedup_run v kept [x] (v x) = none := by simp [dedup_run]
        have hnext : (released k x).value (k.next x) = none := by
          rw [hnx]; exact q2.2.2.2.2.2.1
        rw [hd, q_delete_dup_loop_bad_next f hxh hvx hnext]
        exact ⟨Fault.badRead, rfl, by decide⟩
      | cons y r' =>
        have hny : k.next x = y := hnx
        have hvy : (released k x).value y = some (v y) := hv2 y (by simp)
        rw [hny]
        by_cases hsy : v x = v y
        · have hd : dedup_run v kept (x :: y :: r') (v x) = dedup_run v kept (y :: r') (v x) := by
            simp [dedup_run, hsy]
          have hnext : (released k x).value y = some (v x) := by rw [hsy]; exact hvy
          rw [hd, q_delete_dup_loop_same f hxh hvx hnext]
          exact ih kept (released k x) (v x) f q2 hv2 hf'
        · rcases List.eq_nil_or_concat kept with rfl | ⟨l, fl, rfl⟩
          · have hd : dedup_run v [] (x :: y :: r') (v x) = none := by
              simp [dedup_run, hsy]
            have hl2 := q2.2.2.2.1
            simp only [List.nil_append, Linked] at hl2
            have hfd : (released k x).value ((released k x).prev y) = none := by
              rw [hl2.1.2]; exact q2.2.2.2.2.2.1
            rw [hd, q_delete_dup_loop_first_bad f hxh hvx hvy hsy hfd]
            exact ⟨Fault.badRead, rfl, by decide⟩
          · rw [List.concat_eq_append] at q2 hv2 ⊢
            have hd : dedup_run v (l ++ [fl]) (x :: y :: r') (v x) =
                dedup_run v l (y :: r') (v x) := by
              simp [dedup_run, hsy]
            have e : l ++ [fl] ++ y :: r' = l ++ fl :: (y :: r') := by simp
            rw [e] at q2 hv2
            have hl2 := q2.2.2.2.1
            rw [Linked.append_iff] at hl2
            have hl3 := hl2.2
            simp only [Linked] at hl3
            have hvf : (released k x).value fl = some (v fl) := hv2 fl (by simp)
            have hfd : (released k x).value ((released k x).prev y) = some (v fl) := by
              rw [hl3.1.2]; exact hvf
            rw [hd, q_delete_dup_loop_first f hxh hvx hvy hsy hfd, hl3.1.2]
            exact ih l (released (released k x) fl) (v x) f q2.released_node
              (q2.released_values hv2) hf'
    · by_cases hlen : 1024 < (v x).length + 1
      · have hd : dedup_run v kept (x :: r) s = none := by
          simp [dedup_run, hs, hlen]
        rw [hd, q_delete_dup_loop_overrun f (k.next x) hxh hvx hs hlen]
        exact ⟨Fault.overflow, rfl, by decide⟩
      · have hd : dedup_run v kept (x :: r) s = dedup_run v (kept ++ [x]) r (v x) := by
          simp [dedup_run, hs, hlen]
        have e : kept ++ x :: r = kept ++ [x] ++ r := by simp
        rw [e] at q hv
        rw [hd, q_delete_dup_loop_new f (k.next x) hxh hvx hs hlen, hnx]
        exact ih (kept ++ [x]) k (v x) f q hv hf'

/-! ## `dedup_run` on particular lists -/

theorem dedup_run_pair (v : Ptr → String) (kept : List Ptr) (x y : Ptr) (r : List Ptr)
    (s : String) : dedup_run v kept (x :: y :: r) s =
      if s = v x then
        (if s ≠ v y then (if kept = [] then none else dedup_run v kept.dropLast (y :: r) s)
          else dedup_run v kept (y :: r) s)
      else if 1024 < (v x).length + 1 then none
      else dedup_run v (kept ++ [x]) (y :: r) (v x) := by
  rw [dedup_run]; rfl

theorem dedup_run_single (v : Ptr → String) (kept : List Ptr) (x : Ptr) (s : String) :
    dedup_run v kept [x] s =
      if s = v x then none
      else if 1024 < (v x).length + 1 then none else some (kept ++ [x]) := by
  rw [dedup_run]; rfl

/-- Two equal payloads at the very end make the run fault. -/
theorem dedup_run_last_pair (v : Ptr → String) {a b : Ptr} (hab : v a = v b) :
    ∀ (pre kept : List Ptr) (s : String), dedup_run v kept (pre ++ [a, b]) s = none := by
  intro pre
  induction pre with
  | nil =>
    intro kept s
    rw [List.nil_append, dedup_run_pair]
    by_cases hs : s = v a <;> by_cases hl : 1024 < (v a).length + 1 <;>
      simp [hs, hl, dedup_run_single, ← hab]
  | cons x pre ih =>
    intro kept s
    obtain ⟨y, r, hr⟩ : ∃ y r, pre ++ [a, b] = y :: r := by
      cases pre with
      | nil => exact ⟨a, [b], rfl⟩
      | cons y r => exact ⟨y, r ++ [a, b], rfl⟩
    simp only [List.cons_append, hr] at ih ⊢
    rw [dedup_run_pair]
    split_ifs <;> first | rfl | exact ih _ _

/-- A scratch buffer that starts out equal to the first payload makes the
run fault. -/
theorem dedup_run_first_eq (v : Ptr → String) :
    ∀ (r : List Ptr) (x : Ptr), dedup_run v [] (x :: r) (v x) = none := by
  intro r
  induction r with
  | nil => intro x; rw [dedup_run_single]; simp
  | cons y r ih =>
    intro x
    rw [dedup_run_pair]
    by_cases hxy : v x = v y
    · have := ih y
      rw [← hxy] at this
      simp [hxy]
      rw [← hxy]; exact this
    · simp [hxy]

theorem IsQueue.value_payload {h : Heap} {head : Ptr} {xs : List Ptr} (q : IsQueue h head xs) :
    ∀ x ∈ xs, h.value x = some (payload h x) := by
  intro x hx
  obtain ⟨v, hv⟩ := Option.isSome_iff_exists.1 (q.2.2.2.2.2.2 x hx).2
  simp [payload, hv]

/-- On a non-empty queue `q_delete_dup` dereferences the scratch buffer even
when its allocation failed. -/
theorem q_delete_dup_no_buffer {h : Heap} {head x : Ptr} {xs : List Ptr}
    (q : IsQueue h head (x :: xs)) (fuel : Nat) :
    q_delete_dup (fuel + 1) h head none = .error Fault.nullDeref := by
  have hx : h.next head = x := q.2.2.2.1.1.1
  have hxh : x ≠ head := by
    intro e; apply (List.nodup_cons.1 q.2.1).1; rw [← e]; simp
  simp [q_delete_dup, q_delete_dup_loop, q.1, hx, hxh]

/-- The function `q_delete_dup` on a well-formed queue does what `dedup_run`
says, given fuel for the traversal. -/
theorem q_delete_dup_sim {h : Heap} {head : Ptr} {xs : List Ptr} (q : IsQueue h head xs)
    (s0 : String) {fuel : Nat} (hf : xs.length < fuel) :
    (dedup_run (payload h) [] xs s0 = none →
        ∃ f, q_delete_dup fuel h head (some s0) = .error f ∧ f ≠ Fault.fuel) ∧
      (∀ ys, dedup_run (payload h) [] xs s0 = some ys →
        ∃ k, q_delete_dup fuel h head (some s0) = .ok (k, true) ∧ IsQueue k head ys ∧
          ∀ x ∈ ys, k.value x = some (payload h x)) := by
  have hsim := q_delete_dup_loop_sim (payload h) xs [] h s0 fuel (by simpa using q)
    (by simpa using q.value_payload) hf
  rw [← Linked.next_first q.2.2.2.1] at hsim
  constructor
  · intro hd
    rw [hd] at hsim
    obtain ⟨f, hf1, hf2⟩ := hsim
    exact ⟨f, by simp [q_delete_dup, q.1, hf1], hf2⟩
  · intro ys hd
    rw [hd] at hsim
    obtain ⟨k, hk, qk, hv⟩ := hsim
    exact ⟨k, by simp [q_delete_dup, q.1, hk], qk, hv⟩

/-- On a queue whose neighbouring payloads all differ, with a scratch buffer
that differs from the first payload and payloads that fit the buffer, the loop
of `q_delete_dup` stores nothing in the heap. -/
theorem q_delete_dup_loop_distinct {h : Heap} {head : Ptr} (v : Ptr → String) :
    ∀ (rest kept : List Ptr) (s : String) (fuel : Nat), IsQueue h head (kept ++ rest) →
    (∀ x ∈ rest, h.value x = some (v x)) → List.Chain (fun a b => a ≠ b) s (rest.map v) →
    (∀ x ∈ rest, (v x).length < 1024) → rest.length < fuel →
    q_delete_dup_loop head fuel h (some s) (nodeAt head rest 0) (h.next (nodeAt head rest 0)) =
      .ok h := by
  intro rest
  induction rest with
  | nil =>
    intro kept s fuel _ _ _ _ hf
    obtain ⟨f, rfl⟩ : ∃ f, fuel = f + 1 := ⟨fuel - 1, by simp at hf; omega⟩
    simp [q_delete_dup_loop, nodeAt]
  | cons x r ih =>
    intro kept s fuel q hv hc hlen hf
    obtain ⟨f, rfl⟩ : ∃ f, fuel = f + 1 := ⟨fuel - 1, by simp at hf; omega⟩
    have hxh : x ≠ head := by
      intro e; apply (List.nodup_cons.1 q.2.1).1; rw [← e]; simp
    have hl := q.2.2.2.1
    rw [Linked.append_iff] at hl
    have hnx : h.next x = nodeAt head r 0 := Linked.next_first hl.2
    rw [List.map_cons, List.chain_cons] at hc
    have hnode : nodeAt head (x :: r) 0 = x := rfl
    have hl1 : ¬ 1024 < (v x).length + 1 := by
      have := hlen x (List.mem_cons_self _ _); omega
    have e : kept ++ x :: r = kept ++ [x] ++ r := by simp
    rw [e] at q
    rw [hnode, q_delete_dup_loop_new f (h.next x) hxh (hv x (List.mem_cons_self _ _)) hc.1 hl1,
      hnx]
    exact ih (kept ++ [x]) (v x) f q (fun y hy => hv y (List.mem_cons_of_mem _ hy)) hc.2
      (fun y hy => hlen y (List.mem_cons_of_mem _ hy)) (by simp at hf; omega)

/-! ## The claims -/

/-- C1: on a well-linked circular list (every well-formed queue is one, see
`IsQueue.isList`), every finite sequence of `q_insert_head`, `q_insert_tail`,
`q_remove_head` and `q_remove_tail` calls returns from every call, and after
each call the list is well linked and the circularity invariant
`n.next.prev == n`, `n.prev.next == n` holds for the header and every node.
Each call is taken to be admissible in the heap it is made in: the allocator
answers each `malloc` with `NULL` or an unused block, and a remove with an
output buffer on a non-empty queue finds a payload that, with its terminator,
fits `bufsize`. -/
theorem C1_circular_after_each_call (head : Ptr) (cs : List Call) (h : Heap) (xs : List Ptr)
    (q : IsList h head xs) (hv : ValidCalls head h cs) : CircularAfterEach head h cs := by
  induction cs generalizing h xs with
  | nil => trivial
  | cons c cs ih =>
    obtain ⟨hc, hrest⟩ := hv
    obtain ⟨k, ys, hrun, hq⟩ := Call.run_isList q c hc
    rw [hrun] at hrest
    exact ⟨k, ys, hrun, hq, hq.circular_links, ih k ys hq hrest⟩

/-- C1 witness: a run of eight calls on a freshly created queue, with failing
and successful inserts and with removes that copy into a buffer of two
characters. -/
theorem C1_circular_after_each_call_witness :
    CircularAfterEach 1 (q_new Heap.empty (some 1)).1
      [Call.insert_tail (some "a") (some 2) true, Call.insert_head (some "b") (some 3) true,
        Call.insert_tail (some "c") (some 4) true, Call.remove_tail true 2,
        Call.insert_tail none none true, Call.insert_head (some "d") (some 5) false,
        Call.remove_head true 2, Call.remove_head false 0] :=
  C1_circular_after_each_call 1 _ _ [] (by decide) (by decide)

/-- C2: starting from an empty queue, `q_insert_tail` of each string of `xs`
in order (every allocation succeeding with an unused block, every string with
its terminator shorter than `2^31` so that `int len` holds its length) returns
true each time; `length xs` calls of `q_remove_head` with no output buffer then
return the inserted elements in insertion order, their payloads are exactly
`xs` in the same order, and the queue is empty afterwards. -/
theorem C2_insert_tail_remove_head_fifo (h : Heap) (head : Ptr) (xs : List String)
    (es : List Ptr) (q : IsQueue h head []) (hlen : es.length = xs.length) (nd : es.Nodup)
    (hf : ∀ e ∈ es, e ≠ 0 ∧ h.live e = false) (hs : ∀ s ∈ xs, s.length + 1 < 2147483648) :
    (insert_tail_each head h (xs.zip es)).2 = List.replicate xs.length true ∧
      ∃ k, remove_head_times head xs.length (insert_tail_each head h (xs.zip es)).1 = .ok (k, es) ∧
        payloads k es = xs.map some ∧ IsQueue k head [] := by
  obtain ⟨q1, hr, hp, _⟩ := insert_tail_each_spec xs es h [] q hlen nd hf hs
  have q1' : IsQueue (insert_tail_each head h (xs.zip es)).1 head (es ++ []) := by
    simpa using q1
  obtain ⟨k, hk, qk, hv, _⟩ := remove_head_times_spec es _ [] q1'
  refine ⟨hr, k, by rw [← hlen]; exact hk, ?_, qk⟩
  unfold payloads at hp ⊢
  rw [hv]; exact hp

/-- C2 witness: the strings a, b, c on a freshly created queue. -/
theorem C2_insert_tail_remove_head_fifo_witness :
    (insert_tail_each 1 (q_new Heap.empty (some 1)).1
        (["a", "b", "c"].zip [2, 3, 4])).2 = List.replicate 3 true ∧
      ∃ k, remove_head_times 1 3 (insert_tail_each 1 (q_new Heap.empty (some 1)).1
          (["a", "b", "c"].zip [2, 3, 4])).1 = .ok (k, [2, 3, 4]) ∧
        payloads k [2, 3, 4] = ["a", "b", "c"].map some ∧ IsQueue k 1 [] :=
  C2_insert_tail_remove_head_fifo (q_new Heap.empty (some 1)).1 1 ["a", "b", "c"] [2, 3, 4]
    (by decide) (by decide) (by decide) (by decide) (by decide)

/-- C3: starting from an empty queue, `q_insert_head` of each string of `xs`
in order (every allocation succeeding with an unused block, every string with
its terminator shorter than `2^31` so that `int len` holds its length) returns
true each time; `length xs` calls of `q_remove_head` with no output buffer then
return the inserted elements last-inserted first, their payloads are `xs` in
reverse insertion order, and the queue is empty afterwards. -/
theorem C3_insert_head_remove_head_lifo (h : Heap) (head : Ptr) (xs : List String)
    (es : List Ptr) (q : IsQueue h head []) (hlen : es.length = xs.length) (nd : es.Nodup)
    (hf : ∀ e ∈ es, e ≠ 0 ∧ h.live e = false) (hs : ∀ s ∈ xs, s.length + 1 < 2147483648) :
    (insert_head_each head h (xs.zip es)).2 = List.replicate xs.length true ∧
      ∃ k, remove_head_times head xs.length (insert_head_each head h (xs.zip es)).1 =
          .ok (k, es.reverse) ∧
        payloads k es.reverse = xs.reverse.map some ∧ IsQueue k head [] := by
  obtain ⟨q1, hr, hp, _⟩ := insert_head_each_spec xs es h [] q hlen nd hf hs
  obtain ⟨k, hk, qk, hv, _⟩ := remove_head_times_spec es.reverse _ [] q1
  refine ⟨hr, k, by rw [← hlen, ← List.length_reverse]; exact hk, ?_, qk⟩
  unfold payloads at hp ⊢
  rw [hv, List.map_reverse, List.map_reverse, hp]

/-- C3 witness: the strings a, b, c on a freshly created queue. -/
theorem C3_insert_head_remove_head_lifo_witness :
    (insert_head_each 1 (q_new Heap.empty (some 1)).1
        (["a", "b", "c"].zip [2, 3, 4])).2 = List.replicate 3 true ∧
      ∃ k, remove_head_times 1 3 (insert_head_each 1 (q_new Heap.empty (some 1)).1
          (["a", "b", "c"].zip [2, 3, 4])).1 = .ok (k, [4, 3, 2]) ∧
        payloads k [4, 3, 2] = ["c", "b", "a"].map some ∧ IsQueue k 1 [] :=
  C3_insert_head_remove_head_lifo (q_new Heap.empty (some 1)).1 1 ["a", "b", "c"] [2, 3, 4]
    (by decide) (by decide) (by decide) (by decide) (by decide)

/-- C4: on a well-formed queue of `n` elements, `n` below `2^31` so that the
`int` counter holds it, `q_size` returns `n` (given fuel for the traversal);
after a `q_insert_head` or `q_insert_tail` that returned true it returns
`n + 1` (when `n + 1` is below `2^31`); after a `q_remove_head` or
`q_remove_tail` that returned an element it returns `n - 1` (and `n` was at
least 1); on a `NULL` queue and on an empty queue it returns 0. -/
theorem C4_size_after_insert_remove (h : Heap) (head : Ptr) (xs : List Ptr) (fuel : Nat)
    (q : IsQueue h head xs) (hfuel : xs.length + 1 < fuel) (hint : xs.length < 2147483648) :
    q_size fuel h head = .ok xs.length ∧
      (∀ s m mv, FreshIn h m → xs.length + 1 < 2147483648 →
        (q_insert_head h head s m mv).2 = true →
        q_size fuel (q_insert_head h head s m mv).1 head = .ok (xs.length + 1)) ∧
      (∀ s m mv, FreshIn h m → xs.length + 1 < 2147483648 →
        (q_insert_tail h head s m mv).2 = true →
        q_size fuel (q_insert_tail h head s m mv).1 head = .ok (xs.length + 1)) ∧
      (∀ sp bufsize r, q_remove_head h head sp bufsize = .ok r → r.elem ≠ 0 →
        1 ≤ xs.length ∧ q_size fuel r.heap head = .ok (xs.length - 1)) ∧
      (∀ sp bufsize r, q_remove_tail h head sp bufsize = .ok r → r.elem ≠ 0 →
        1 ≤ xs.length ∧ q_size fuel r.heap head = .ok (xs.length - 1)) ∧
      (∀ k : Heap, q_size fuel k 0 = .ok 0) ∧
      (xs = [] → q_size fuel h head = .ok 0) := by
  have ql := q.isList
  refine ⟨q_size_eq ql (by omega) hint, ?_, ?_, ?_, ?_, ?_, ?_⟩
  · intro s m mv hm hb hr
    rcases ql.insert_head_cases s m mv hm with ⟨hf, _⟩ | ⟨e, _, _, hk⟩
    · rw [hf] at hr; exact Bool.noConfusion hr
    · have := @q_size_eq _ _ _ hk fuel (by simp only [List.length_cons]; omega)
        (by simp only [List.length_cons]; omega)
      simpa using this
  · intro s m mv hm hb hr
    rcases ql.insert_tail_cases s m mv hm with ⟨hf, _⟩ | ⟨e, _, _, hk⟩
    · rw [hf] at hr; exact Bool.noConfusion hr
    · have := @q_size_eq _ _ _ hk fuel
        (by simp only [List.length_append, List.length_singleton]; omega)
        (by simp only [List.length_append, List.length_singleton]; omega)
      simpa using this
  · intro sp bufsize r hr he
    cases xs with
    | nil =>
      rw [q_remove_head_nil q] at hr
      injection hr with hr
      subst hr
      exact absurd rfl he
    | cons x xs =>
      obtain ⟨hheap, _⟩ := ql.remove_head_returned hr
      have q1 := @IsList.unlink_elem h head x [] xs ql
      simp only [List.length_cons] at hfuel hint
      refine ⟨by simp, ?_⟩
      have := @q_size_eq _ _ _ q1 fuel (by simp; omega) (by simp; omega)
      rw [hheap]
      simpa using this
  · intro sp bufsize r hr he
    rcases List.eq_nil_or_concat xs with rfl | ⟨l, x, rfl⟩
    · rw [q_remove_tail_nil q] at hr
      injection hr with hr
      subst hr
      exact absurd rfl he
    · rw [List.concat_eq_append] at ql hfuel hint ⊢
      obtain ⟨hheap, _⟩ := ql.remove_tail_returned hr
      have q1 := @IsList.unlink_elem h head x l [] ql
      rw [List.append_nil] at q1
      simp only [List.length_append, List.length_singleton] at hfuel hint
      refine ⟨by simp, ?_⟩
      have := @q_size_eq _ _ _ q1 fuel (by omega) (by omega)
      rw [hheap]
      simpa using this
  · intro k
    simp [q_size]
  · rintro rfl
    exact q_size_eq ql (by simp at hfuel ⊢; omega) (by simp)

/-- C4 witness: on the two-element queue a, b the size is 2; it is 3 after
inserting z at the head or at the tail, and 1 after removing the head or the
tail into a buffer of two characters. -/
theorem C4_size_after_insert_remove_witness :
    q_size 4 (queue_of ["a", "b"]) 1 = .ok 2 ∧
      q_size 4 (q_insert_head (queue_of ["a", "b"]) 1 (some "z") (some 4) true).1 1 = .ok 3 ∧
      q_size 4 (q_insert_tail (queue_of ["a", "b"]) 1 (some "z") (some 4) true).1 1 = .ok 3 ∧
      (∃ r, q_remove_head (queue_of ["a", "b"]) 1 true 2 = .ok r ∧ r.elem = 2 ∧
        q_size 4 r.heap 1 = .ok 1) ∧
      (∃ r, q_remove_tail (queue_of ["a", "b"]) 1 true 2 = .ok r ∧ r.elem = 3 ∧
        q_size 4 r.heap 1 = .ok 1) := by
  have q : IsQueue (queue_of ["a", "b"]) 1 [2, 3] := by decide
  have T := C4_size_after_insert_remove (queue_of ["a", "b"]) 1 [2, 3] 4 q (by decide)
    (by decide)
  obtain ⟨c, hc⟩ := q_remove_head_cons q true 2 (fun _ => by decide)
  obtain ⟨d, hd⟩ := @q_remove_tail_concat _ 1 3 [2] q true 2 (fun _ => by decide)
  have hm : FreshIn (queue_of ["a", "b"]) (some 4) := by decide
  have hb : [2, 3].length + 1 < 2147483648 := by decide
  have r1 : (q_insert_head (queue_of ["a", "b"]) 1 (some "z") (some 4) true).2 = true := by
    decide
  have r2 : (q_insert_tail (queue_of ["a", "b"]) 1 (some "z") (some 4) true).2 = true := by
    decide
  exact ⟨T.1, T.2.1 (some "z") (some 4) true hm hb r1, T.2.2.1 (some "z") (some 4) true hm hb r2,
    ⟨_, hc, rfl, (T.2.2.2.1 true 2 _ hc (Nat.succ_ne_zero 1)).2⟩,
    ⟨_, hd, rfl, (T.2.2.2.2.1 true 2 _ hd (Nat.succ_ne_zero 2)).2⟩⟩

/-- C5: on a well-formed queue of `n >= 1` elements `q_delete_mid` (given
fuel for the traversal) returns true, unlinks and releases the element at
0-based position `n / 2`, and leaves the other elements, with their payloads,
in their original order; a 1-element queue becomes empty.  On an empty queue
and on a `NULL` queue it returns false and leaves the heap as it was. -/
theorem C5_delete_mid (h : Heap) (head : Ptr) (xs : List Ptr) (fuel : Nat)
    (q : IsQueue h head xs) (hfuel : xs.length < fuel) :
    (xs ≠ [] → ∃ k, q_delete_mid fuel h head = .ok (k, true) ∧
        IsQueue k head (xs.eraseIdx (xs.length / 2)) ∧
        payloads k (xs.eraseIdx (xs.length / 2)) = payloads h (xs.eraseIdx (xs.length / 2)) ∧
        ∀ x, xs[xs.length / 2]? = some x → k.value x = none ∧ k.live x = false) ∧
      (∀ x, xs = [x] → ∃ k, q_delete_mid fuel h head = .ok (k, true) ∧ IsQueue k head []) ∧
      (xs = [] → q_delete_mid fuel h head = .ok (h, false)) ∧
      (∀ k : Heap, q_delete_mid fuel k 0 = .ok (k, false)) := by
  refine ⟨?_, ?_, ?_, ?_⟩
  · intro hne
    have hlt : xs.length / 2 < xs.length := by
      have := List.length_pos.2 hne; omega
    obtain ⟨k, hk, qk, hfr, hv, hl⟩ := q_delete_mid_spec q hne (by omega : xs.length / 2 < fuel)
    refine ⟨k, hk, qk, ?_, ?_⟩
    · unfold payloads
      apply List.map_congr_left
      intro p hp
      refine (hfr p ?_).1
      rintro rfl
      have nd := (List.nodup_cons.1 q.2.1).2
      rw [List.eraseIdx_eq_take_drop_succ] at hp
      have hs := @nodeAt_split head xs (xs.length / 2) hlt
      rw [hs] at nd
      have := (@List.perm_middle _ (nodeAt head xs (xs.length / 2))
        (xs.take (xs.length / 2)) (xs.drop (xs.length / 2 + 1))).nodup_iff.1 nd
      exact (List.nodup_cons.1 this).1 hp
    · intro x hx
      rw [@nodeAt_getElem? head xs _ hlt] at hx
      injection hx with hx
      rw [← hx]
      exact ⟨hv, hl⟩
  · rintro x rfl
    have h1 : [x].length / 2 < fuel := by
      simp only [List.length_singleton] at hfuel ⊢; omega
    obtain ⟨k, hk, qk, _⟩ := q_delete_mid_spec q (by simp) h1
    have e : [x].length / 2 = 0 := by
      simp only [List.length_singleton]
    rw [e] at qk
    exact ⟨k, hk, qk⟩
  · rintro rfl
    simp [q_delete_mid, q.list_empty_eq]
  · intro k
    simp [q_delete_mid]

/-- C5 witness: deleting the middle of the queue 1, 2, 3 leaves 1, 3. -/
theorem C5_delete_mid_witness :
    ∃ k, q_delete_mid 4 (queue_of ["1", "2", "3"]) 1 = .ok (k, true) ∧
      IsQueue k 1 [2, 4] ∧
      payloads k [2, 4] = payloads (queue_of ["1", "2", "3"]) [2, 4] ∧
      ∀ x, [2, 3, 4][1]? = some x → k.value x = none ∧ k.live x = false :=
  (C5_delete_mid (queue_of ["1", "2", "3"]) 1 [2, 3, 4] 4 (by decide) (by decide)).1 (by decide)

/-- C6 counterexample: on the queue 1, 2, 3, 4, 5, 6 `q_delete_mid` does not
leave 1, 2, 4, 5, 6. -/
theorem C6_delete_mid_six_counterexample :
    ¬ (values_after 7 1 (q_delete_mid 7 (queue_of ["1", "2", "3", "4", "5", "6"]) 1) =
      some [some "1", some "2", some "4", some "5", some "6"]) := by
  decide

/-- C6 (amended): on the queue 1, 2, 3, 4, 5, 6 `q_delete_mid` returns true,
releases the element with value 4 (0-based position 3) and leaves the queue
1, 2, 3, 5, 6. -/
theorem C6_delete_mid_six :
    (queue_of ["1", "2", "3", "4", "5", "6"]).value 5 = some "4" ∧
      values_after 7 1 (q_delete_mid 7 (queue_of ["1", "2", "3", "4", "5", "6"]) 1) =
        some [some "1", some "2", some "3", some "5", some "6"] ∧
      ∃ k, q_delete_mid 7 (queue_of ["1", "2", "3", "4", "5", "6"]) 1 = .ok (k, true) ∧
        IsQueue k 1 [2, 3, 4, 6, 7] ∧ k.value 5 = none ∧ k.live 5 = false := by
  refine ⟨by decide, by decide, ?_⟩
  have q : IsQueue (queue_of ["1", "2", "3", "4", "5", "6"]) 1 [2, 3, 4, 5, 6, 7] := by decide
  obtain ⟨k, hk, qk, _, hv, hl⟩ := q_delete_mid_spec q (by simp) (by decide : 6 / 2 < 7)
  exact ⟨k, hk, qk, hv, hl⟩

/-- C7 (the code fails the claim): on the sorted queue 1, 1 `q_delete_dup`
never returns, whatever the fuel and the initial state of the scratch buffer:
after deleting the second copy it reads the payload of the header.  With a
scratch buffer that starts empty the run ends in that bad read.  The two
witnesses of the claim do come out as claimed when the buffer starts empty:
1, 1, 2, 3, 3, 3, 4 becomes 2, 4 and 1, 2, 3 stays 1, 2, 3. -/
theorem C7_delete_dup_final_run (fuel : Nat) (str0 : Option String) :
    (∃ f, q_delete_dup fuel (queue_of ["1", "1"]) 1 str0 = .error f) ∧
      IsQueue (queue_of ["1", "1"]) 1 [2, 3] ∧
      payloads (queue_of ["1", "1"]) [2, 3] = [some "1", some "1"] ∧
      fault_of (q_delete_dup 3 (queue_of ["1", "1"]) 1 (some "")) = some Fault.badRead ∧
      values_after 8 1 (q_delete_dup 8 (queue_of ["1", "1", "2", "3", "3", "3", "4"]) 1
        (some "")) = some [some "2", some "4"] ∧
      values_after 4 1 (q_delete_dup 4 (queue_of ["1", "2", "3"]) 1 (some "")) =
        some [some "1", some "2", some "3"] := by
  refine ⟨?_, by decide, by decide, by decide, by decide, by decide⟩
  have n1 : (queue_of ["1", "1"]).next 1 = 2 := by decide
  have n2 : (queue_of ["1", "1"]).next 2 = 3 := by decide
  have n3 : (queue_of ["1", "1"]).next 3 = 1 := by decide
  have v1 : (queue_of ["1", "1"]).value 1 = none := by decide
  have v2 : (queue_of ["1", "1"]).value 2 = some "1" := by decide
  have v3 : (queue_of ["1", "1"]).value 3 = some "1" := by decide
  have p2 : (queue_of ["1", "1"]).prev 2 = 1 := by decide
  have l1 : ¬ (1024 < "1".length + 1) := by decide
  cases fuel with
  | zero => exact ⟨.fuel, by simp [q_delete_dup, q_delete_dup_loop]⟩
  | succ f =>
    cases str0 with
    | none => exact ⟨.nullDeref, by simp [q_delete_dup, q_delete_dup_loop, n1]⟩
    | some s =>
      by_cases hs : s = "1"
      · subst hs
        obtain ⟨e, he⟩ := @q_delete_dup_loop_dup_at_end 1 f
          ((((list_del_init (queue_of ["1", "1"]) 2).setValue 2 none).setLive 2 false)) "1" 3
          (by simp [v3]) (by decide) (by simp [v1])
        refine ⟨e, ?_⟩
        simp [q_delete_dup, q_delete_dup_loop, n1, n2, v2, q_release_element, v3,
          list_del_init_next, n3, p2, he]
      · obtain ⟨e, he⟩ := @q_delete_dup_loop_dup_at_end 1 f (queue_of ["1", "1"]) "1" 3 v3
          (by decide) v1
        refine ⟨e, ?_⟩
        simp [q_delete_dup, q_delete_dup_loop, n1, n2, v2, hs, n3, he, l1]

/-- C8: on a well-formed queue with nodes `x_0 .. x_(n-1)` `q_swap` (given
fuel for the traversal) returns and leaves the same nodes, with payloads and
allocation untouched, in the order `x_1, x_0, x_3, x_2, ...`: positions `2i`
and `2i + 1` are exchanged whenever `2i + 1 < n`, and for odd `n` the last
node stays last.  On an empty or single-element queue and on a `NULL` queue
the heap is left as it was. -/
theorem C8_swap (h : Heap) (head : Ptr) (xs : List Ptr) (fuel : Nat)
    (q : IsQueue h head xs) (hfuel : xs.length < fuel) :
    ∃ k, q_swap fuel h head = .ok k ∧ IsQueue k head (swap_pairs_spec xs) ∧
      k.value = h.value ∧ k.live = h.live ∧
      (∀ i, 2 * i + 1 < xs.length →
        (swap_pairs_spec xs)[2 * i]? = xs[2 * i + 1]? ∧
        (swap_pairs_spec xs)[2 * i + 1]? = xs[2 * i]?) ∧
      (xs.length % 2 = 1 → (swap_pairs_spec xs)[xs.length - 1]? = xs[xs.length - 1]?) ∧
      (xs.length ≤ 1 → k = h) ∧
      ∀ k0 : Heap, q_swap fuel k0 0 = .ok k0 := by
  obtain ⟨k, hk, qk, _, hv, hl, hsmall⟩ := q_swap_spec q (by omega : xs.length / 2 < fuel)
  exact ⟨k, hk, qk, hv, hl, swap_pairs_spec_get xs, swap_pairs_spec_last xs, hsmall,
    fun k0 => by simp [q_swap]⟩

/-- C8 witness: the queue 1, 2, 3, 4, 5 becomes 2, 1, 4, 3, 5. -/
theorem C8_swap_witness :
    ∃ k, q_swap 6 (queue_of ["1", "2", "3", "4", "5"]) 1 = .ok k ∧
      IsQueue k 1 [3, 2, 5, 4, 6] ∧
      payloads k [3, 2, 5, 4, 6] = [some "2", some "1", some "4", some "3", some "5"] := by
  obtain ⟨k, hk, qk, hv, _⟩ :=
    C8_swap (queue_of ["1", "2", "3", "4", "5"]) 1 [2, 3, 4, 5, 6] 6 (by decide) (by decide)
  refine ⟨k, hk, qk, ?_⟩
  unfold payloads
  rw [hv]
  decide

/-- C9: on a well-formed queue with elements `e_0 .. e_(n-1)` `q_reverse`
(given fuel for the traversal) returns; afterwards the queue is well formed,
the forward traversal from the header yields the same nodes in the order
`e_(n-1) .. e_0` and the backward traversal yields `e_0 .. e_(n-1)`; payloads
and allocation are untouched (nothing allocated or freed).  On an empty queue
and on a `NULL` queue the heap is left as it was. -/
theorem C9_reverse (h : Heap) (head : Ptr) (xs : List Ptr) (fuel : Nat)
    (q : IsQueue h head xs) (hfuel : xs.length < fuel) :
    ∃ k, q_reverse fuel h head = .ok k ∧ IsQueue k head xs.reverse ∧
      q_forward fuel k head = xs.reverse ∧ q_backward fuel k head = xs ∧
      k.value = h.value ∧ k.live = h.live ∧ (xs = [] → k = h) ∧
      ∀ k0 : Heap, q_reverse fuel k0 0 = .ok k0 := by
  have hlen : xs.reverse.length < fuel := by simpa using hfuel
  refine ⟨_, q_reverse_spec q hfuel, q.flip_all, q.flip_all.forward_eq hlen, ?_, rfl, rfl, ?_, ?_⟩
  · rw [q.flip_all.backward_eq hlen, List.reverse_reverse]
  · rintro rfl
    have := q_reverse_spec q hfuel
    have e : q_reverse fuel h head = .ok h := by
      simp [q_reverse, q.list_empty_eq]
    rw [e] at this
    injection this with this
    exact this.symm
  · intro k0
    simp [q_reverse]

/-- C9 witness: the queue a, b, c at nodes 2, 3, 4 is traversed 4, 3, 2
after `q_reverse`. -/
theorem C9_reverse_witness :
    ∃ k, q_reverse 4 (queue_of ["a", "b", "c"]) 1 = .ok k ∧ IsQueue k 1 [4, 3, 2] ∧
      q_forward 4 k 1 = [4, 3, 2] ∧ q_backward 4 k 1 = [2, 3, 4] ∧
      k.value = (queue_of ["a", "b", "c"]).value ∧ k.live = (queue_of ["a", "b", "c"]).live := by
  obtain ⟨k, hk, qk, hf, hb, hv, hl, _⟩ :=
    C9_reverse (queue_of ["a", "b", "c"]) 1 [2, 3, 4] 4 (by decide) (by decide)
  exact ⟨k, hk, qk, hf, hb, hv, hl⟩

/-- C10: `q_reverse` is an involution on well-formed queues of any size:
the first call returns a heap on which the second call returns exactly the
original heap (all links, payloads and allocation as before). -/
theorem C10_reverse_involution (h : Heap) (head : Ptr) (xs : List Ptr) (fuel : Nat)
    (q : IsQueue h head xs) (hfuel : xs.length < fuel) :
    ∃ k, q_reverse fuel h head = .ok k ∧ q_reverse fuel k head = .ok h := by
  refine ⟨_, q_reverse_spec q hfuel, ?_⟩
  rw [q_reverse_spec q.flip_all (by simpa using hfuel)]
  exact congrArg _ (flipOn_flipOn h (fun p => by simp))

/-- C10 witness: reversing the queue a, b, c twice. -/
theorem C10_reverse_involution_witness :
    ∃ k, q_reverse 4 (queue_of ["a", "b", "c"]) 1 = .ok k ∧
      q_reverse 4 k 1 = .ok (queue_of ["a", "b", "c"]) :=
  C10_reverse_involution (queue_of ["a", "b", "c"]) 1 [2, 3, 4] 4 (by decide) (by decide)

/-- C11 (the code fails the claim): `q_remove_head` on the one-element queue
holding hello, with an output buffer, stores the six characters h, e, l, l,
o, NUL through `sp` for every `bufsize`; with `bufsize = 3` that is three
characters past the capacity, and the character at index `bufsize - 1 = 2` is
l, not the terminator: the call overruns the buffer. -/
theorem C11_remove_head_ignores_bufsize (bufsize : Nat) :
    IsQueue (queue_of ["hello"]) 1 [2] ∧
      copied_of (q_remove_head (queue_of ["hello"]) 1 true bufsize) =
        some ['h', 'e', 'l', 'l', 'o', Char.ofNat 0] ∧
      copied_of (q_remove_head (queue_of ["hello"]) 1 true 3) ≠
        some ['h', 'e', Char.ofNat 0] ∧
      fault_of (q_remove_head (queue_of ["hello"]) 1 true 3) =
        some (Fault.overrun ['h', 'e', 'l', 'l', 'o', Char.ofNat 0]) := by
  have q : IsQueue (queue_of ["hello"]) 1 [2] := by decide
  have hv : (queue_of ["hello"]).value 2 = some "hello" := by decide
  refine ⟨q, ?_, ?_, ?_⟩
  · rw [q_remove_head_copied q hv bufsize]; rfl
  · rw [q_remove_head_copied q hv 3]; decide
  · rw [q_remove_head_overrun q hv (by decide)]; rfl

/-- C12: on a well-formed queue with `n >= 1` elements `q_remove_tail`
returns the last element; the element is unlinked (its own links point to
itself) but not released (still allocated, payload intact), payloads and
allocation of all nodes are untouched, and the queue holds the other elements
in their order.  On an empty queue it returns `NULL` and the heap is left as it
was.  When there is an output buffer, the payload of the last element
`head->prev` is taken to fit it with its terminator; the code does not look at
`bufsize` and overruns a smaller buffer. -/
theorem C12_remove_tail (h : Heap) (head : Ptr) (xs : List Ptr) (sp : Bool) (bufsize : Nat)
    (q : IsQueue h head xs)
    (hfit : sp = true → xs ≠ [] → PayloadFits h (h.prev head) bufsize) :
    (∀ hne : xs ≠ [], ∃ r, q_remove_tail h head sp bufsize = .ok r ∧
        r.elem = xs.getLast hne ∧ IsQueue r.heap head xs.dropLast ∧
        r.heap.value = h.value ∧ r.heap.live = h.live ∧
        r.heap.live r.elem = true ∧ (r.heap.value r.elem).isSome = true ∧
        r.heap.next r.elem = r.elem ∧ r.heap.prev r.elem = r.elem) ∧
      (xs = [] → q_remove_tail h head sp bufsize = .ok ⟨h, 0, none⟩) := by
  refine ⟨?_, ?_⟩
  · intro hne
    have hx := List.dropLast_append_getLast hne
    have q' := q
    rw [← hx] at q'
    have hp : h.prev head = xs.getLast hne := q'.isList.prev_head.1
    obtain ⟨c, hc⟩ := q_remove_tail_concat q' sp bufsize (fun hsp => hp ▸ hfit hsp hne)
    have q1 := @IsQueue.unlink_node h head (xs.getLast hne) xs.dropLast [] q'
    rw [List.append_nil] at q1
    have hel := q.2.2.2.2.2.2 (xs.getLast hne) (List.getLast_mem hne)
    refine ⟨_, hc, rfl, q1, rfl, rfl, hel.1, hel.2, ?_, ?_⟩
    · show (list_del_init h (xs.getLast hne)).next (xs.getLast hne) = _
      rw [list_del_init_next]; simp
    · show (list_del_init h (xs.getLast hne)).prev (xs.getLast hne) = _
      rw [list_del_init_prev]; simp
  · rintro rfl
    exact q_remove_tail_nil q sp bufsize

/-- C12 witness: removing the tail of the queue a, b, c at nodes 2, 3, 4 into
a buffer of two characters. -/
theorem C12_remove_tail_witness :
    ∃ r, q_remove_tail (queue_of ["a", "b", "c"]) 1 true 2 = .ok r ∧ r.elem = 4 ∧
      IsQueue r.heap 1 [2, 3] ∧ r.heap.value 4 = some "c" := by
  obtain ⟨r, hr, he, qr, hv, _⟩ :=
    (C12_remove_tail (queue_of ["a", "b", "c"]) 1 [2, 3, 4] true 2 (by decide)
      (fun _ _ => by decide)).1 (by simp)
  refine ⟨r, hr, he, qr, ?_⟩
  rw [hv]; decide

/-- C13 (the code fails the claim for `q_remove_tail`): on a `NULL` queue
`q_remove_head` returns `NULL` and leaves the heap as it is, but `q_remove_tail`
evaluates `head->prev->prev` before any check and so dereferences `NULL`. -/
theorem C13_remove_null (h : Heap) (sp : Bool) (bufsize : Nat) :
    q_remove_head h 0 sp bufsize = .ok ⟨h, 0, none⟩ ∧
      q_remove_tail h 0 sp bufsize = .error Fault.nullDeref := by
  constructor
  · simp [q_remove_head]
  · simp [q_remove_tail]

/-- C14: `q_insert_head` and `q_insert_tail` return false and leave the heap
as it was when the queue is `NULL`, when the string is `NULL`, and when an
allocation of `gen_element` fails; on a well-formed queue a false return always
leaves the heap as it was and has one of these causes; a true return means
that the string and both allocations were there and that exactly the new
element, carrying the string, has been linked in front (`q_insert_head`) or at
the back (`q_insert_tail`) of the previous elements, whose order and payloads
are kept.  The string, when there is one, is taken to be shorter with its
terminator than `2^31`, so that `int len` of `gen_element` holds its length. -/
theorem C14_insert_outcomes (h : Heap) (head : Ptr) (xs : List Ptr) (s : Option String)
    (m : Option Ptr) (mv : Bool) (q : IsQueue h head xs) (hm : FreshIn h m)
    (hs : ∀ str, s = some str → str.length + 1 < 2147483648) :
    (∀ k : Heap, q_insert_head k 0 s m mv = (k, false) ∧ q_insert_tail k 0 s m mv = (k, false)) ∧
      (∀ (k : Heap) (hd : Ptr), q_insert_head k hd none m mv = (k, false) ∧
        q_insert_tail k hd none m mv = (k, false)) ∧
      (m = none ∨ mv = false →
        q_insert_head h head s m mv = (h, false) ∧ q_insert_tail h head s m mv = (h, false)) ∧
      ((q_insert_head h head s m mv).2 = false →
        (q_insert_head h head s m mv).1 = h ∧ (s = none ∨ m = none ∨ mv = false)) ∧
      ((q_insert_tail h head s m mv).2 = false →
        (q_insert_tail h head s m mv).1 = h ∧ (s = none ∨ m = none ∨ mv = false)) ∧
      ((q_insert_head h head s m mv).2 = true → ∃ str e, s = some str ∧ m = some e ∧
        IsQueue (q_insert_head h head s m mv).1 head (e :: xs) ∧
        (q_insert_head h head s m mv).1.value e = some str ∧
        ∀ p, p ≠ e → (q_insert_head h head s m mv).1.value p = h.value p) ∧
      ((q_insert_tail h head s m mv).2 = true → ∃ str e, s = some str ∧ m = some e ∧
        IsQueue (q_insert_tail h head s m mv).1 head (xs ++ [e]) ∧
        (q_insert_tail h head s m mv).1.value e = some str ∧
        ∀ p, p ≠ e → (q_insert_tail h head s m mv).1.value p = h.value p) := by
  refine ⟨fun k => ⟨q_insert_head_null k s m mv, q_insert_tail_null k s m mv⟩,
    fun k hd => ⟨rfl, rfl⟩,
    fun hfail => ⟨q_insert_head_alloc_fail head s hm hfail,
      q_insert_tail_alloc_fail head s hm hfail⟩,
    q_insert_head_false hm q.1 hs, q_insert_tail_false hm q.1 hs, ?_, ?_⟩
  · intro hr
    obtain ⟨str, e, rfl, rfl, rfl, he⟩ := q_insert_head_true hr
    exact ⟨str, e, rfl, rfl, q.after_insert_head str (hs str rfl) he hm.2⟩
  · intro hr
    obtain ⟨str, e, rfl, rfl, rfl, he⟩ := q_insert_tail_true hr
    exact ⟨str, e, rfl, rfl, q.after_insert_tail str (hs str rfl) he hm.2⟩

/-- C14 witness: a successful `q_insert_head` of z into the queue a, b. -/
theorem C14_insert_outcomes_witness :
    ∃ str e, some "z" = some str ∧ some 4 = some e ∧
      IsQueue (q_insert_head (queue_of ["a", "b"]) 1 (some "z") (some 4) true).1 1 (e :: [2, 3]) ∧
      (q_insert_head (queue_of ["a", "b"]) 1 (some "z") (some 4) true).1.value e = some str ∧
      ∀ p, p ≠ e → (q_insert_head (queue_of ["a", "b"]) 1 (some "z") (some 4) true).1.value p =
        (queue_of ["a", "b"]).value p :=
  (C14_insert_outcomes (queue_of ["a", "b"]) 1 [2, 3] (some "z") (some 4) true (by decide)
    (by decide) (fun str e => by cases e; decide)).2.2.2.2.2.1 (by decide)

/-- C15: when `q_delete_dup` returns, its return value is false if and only if
the queue argument is `NULL`; on a `NULL` queue it returns false and leaves the
heap as it was; on an empty queue it returns true (given fuel for the loop
test, and whatever the scratch buffer holds, even if its allocation failed) and
leaves the heap as it was, so the queue stays empty. -/
theorem C15_delete_dup_return (fuel : Nat) (h : Heap) (head : Ptr) (str0 : Option String)
    (q : IsQueue h head []) (hfuel : 0 < fuel) :
    q_delete_dup fuel h head str0 = .ok (h, true) ∧
      (∀ k : Heap, q_delete_dup fuel k 0 str0 = .ok (k, false)) ∧
      (∀ (k : Heap) (hd : Ptr) (s : Option String) (k' : Heap) (b : Bool),
        q_delete_dup fuel k hd s = .ok (k', b) → (b = false ↔ hd = 0)) := by
  obtain ⟨f, rfl⟩ : ∃ f, fuel = f + 1 := ⟨fuel - 1, by omega⟩
  have hl := q.2.2.2.1
  simp only [Linked] at hl
  refine ⟨?_, ?_, ?_⟩
  · simp [q_delete_dup, q_delete_dup_loop, q.1, hl.1]
  · intro k
    simp [q_delete_dup]
  · intro k hd s k' b hr
    by_cases hh : hd = 0
    · subst hh
      simp only [q_delete_dup, if_true] at hr
      injection hr with hr
      injection hr with _ hb
      simp [← hb]
    · simp only [q_delete_dup, hh, if_false] at hr
      split at hr
      · exact absurd hr (by simp)
      · injection hr with hr
        injection hr with _ hb
        simp [← hb, hh]

/-- C15 witness: `q_delete_dup` on a freshly created queue. -/
theorem C15_delete_dup_return_witness :
    q_delete_dup 1 (q_new Heap.empty (some 1)).1 1 none =
      .ok ((q_new Heap.empty (some 1)).1, true) :=
  (C15_delete_dup_return 1 (q_new Heap.empty (some 1)).1 1 none (by decide) (by decide)).1

/-- C16 (the code fails the claim): the body of `q_sort` is empty, so every
heap is returned as it is; the queue 3, 1, 2 is still 3, 1, 2 afterwards, not
1, 2, 3. -/
theorem C16_sort_does_nothing (h : Heap) (head : Ptr) :
    q_sort h head = h ∧
      IsQueue (queue_of ["3", "1", "2"]) 1 [2, 3, 4] ∧
      q_values 4 (q_sort (queue_of ["3", "1", "2"]) 1) 1 = [some "3", some "1", some "2"] ∧
      q_values 4 (q_sort (queue_of ["3", "1", "2"]) 1) 1 ≠ [some "1", some "2", some "3"] :=
  ⟨rfl, by decide, by decide, by decide⟩

/-- C17: each of `q_swap`, `q_reverse` and `q_delete_mid`, applied to a
well-formed queue of any size (given fuel for the traversal), returns and
leaves a well-formed queue: `n.next.prev == n` and `n.prev.next == n` hold for
the header and every node, and the forward traversal from the header visits
the remaining elements (a rearrangement of the original ones for `q_swap` and
`q_reverse`, all but the middle one for `q_delete_mid`), each exactly once, and
is back at the header. -/
theorem C17_links_after_rearranging (h : Heap) (head : Ptr) (xs : List Ptr) (fuel : Nat)
    (q : IsQueue h head xs) (hfuel : xs.length < fuel) :
    (∃ k ys, q_swap fuel h head = .ok k ∧ IsQueue k head ys ∧ ys.Perm xs ∧
        Circular k (head :: ys) ∧ q_forward fuel k head = ys ∧ ys.Nodup) ∧
      (∃ k ys, q_reverse fuel h head = .ok k ∧ IsQueue k head ys ∧ ys.Perm xs ∧
        Circular k (head :: ys) ∧ q_forward fuel k head = ys ∧ ys.Nodup) ∧
      (∃ k b ys, q_delete_mid fuel h head = .ok (k, b) ∧ IsQueue k head ys ∧
        ys = xs.eraseIdx (xs.length / 2) ∧
        Circular k (head :: ys) ∧ q_forward fuel k head = ys ∧ ys.Nodup) := by
  refine ⟨?_, ?_, ?_⟩
  · obtain ⟨k, hk, qk, _⟩ := q_swap_spec q (by omega : xs.length / 2 < fuel)
    exact ⟨k, _, hk, qk, swap_pairs_spec_perm xs, qk.circular,
      qk.forward_eq (by rw [swap_pairs_spec_length]; exact hfuel),
      (List.nodup_cons.1 qk.2.1).2⟩
  · have qk := q.flip_all
    exact ⟨_, _, q_reverse_spec q hfuel, qk, List.reverse_perm xs, qk.circular,
      qk.forward_eq (by simpa using hfuel), (List.nodup_cons.1 qk.2.1).2⟩
  · by_cases hne : xs = []
    · subst hne
      refine ⟨h, false, [], ?_, q, rfl, q.circular, q.forward_eq hfuel, List.nodup_nil⟩
      simp [q_delete_mid, q.list_empty_eq]
    · obtain ⟨k, hk, qk, _⟩ := q_delete_mid_spec q hne (by omega : xs.length / 2 < fuel)
      have hlen : (xs.eraseIdx (xs.length / 2)).length < fuel :=
        lt_of_le_of_lt (List.eraseIdx_sublist xs _).length_le hfuel
      exact ⟨k, true, _, hk, qk, rfl, qk.circular, qk.forward_eq hlen,
        (List.nodup_cons.1 qk.2.1).2⟩

/-- C17 witness: the three operations on the two-element queue a, b. -/
theorem C17_links_after_rearranging_witness :
    (∃ k ys, q_swap 3 (queue_of ["a", "b"]) 1 = .ok k ∧ IsQueue k 1 ys ∧ ys.Perm [2, 3] ∧
        Circular k (1 :: ys) ∧ q_forward 3 k 1 = ys ∧ ys.Nodup) ∧
      (∃ k ys, q_reverse 3 (queue_of ["a", "b"]) 1 = .ok k ∧ IsQueue k 1 ys ∧ ys.Perm [2, 3] ∧
        Circular k (1 :: ys) ∧ q_forward 3 k 1 = ys ∧ ys.Nodup) ∧
      (∃ k b ys, q_delete_mid 3 (queue_of ["a", "b"]) 1 = .ok (k, b) ∧ IsQueue k 1 ys ∧
        ys = [2] ∧ Circular k (1 :: ys) ∧ q_forward 3 k 1 = ys ∧ ys.Nodup) :=
  C17_links_after_rearranging (queue_of ["a", "b"]) 1 [2, 3] 3 (by decide) (by decide)

/-- C20: `q_swap` is an involution on well-formed queues of any length:
the first call returns a heap on which the second call returns exactly the
original heap (all links, payloads and allocation as before). -/
theorem C20_swap_involution (h : Heap) (head : Ptr) (xs : List Ptr) (fuel : Nat)
    (q : IsQueue h head xs) (hfuel : xs.length < fuel) :
    ∃ k, q_swap fuel h head = .ok k ∧ q_swap fuel k head = .ok h := by
  obtain ⟨k, hk, qk, hfr, hv, hl, _⟩ := q_swap_spec q (by omega : xs.length / 2 < fuel)
  obtain ⟨k2, hk2, qk2, hfr2, hv2, hl2, _⟩ := q_swap_spec qk
    (by rw [swap_pairs_spec_length]; omega : (swap_pairs_spec xs).length / 2 < fuel)
  rw [swap_pairs_spec_twice] at qk2
  have hmem : ∀ p, p ∈ head :: swap_pairs_spec xs ↔ p ∈ head :: xs := fun p =>
    (List.Perm.cons head (swap_pairs_spec_perm xs)).mem_iff
  have e : k2 = h := by
    apply Heap.ext_fields
    · intro p
      by_cases hp : p ∈ head :: xs
      · exact (qk2.links_eq q p hp).1
      · rw [(hfr2 p (fun c => hp ((hmem p).1 c))).1, (hfr p hp).1]
    · intro p
      by_cases hp : p ∈ head :: xs
      · exact (qk2.links_eq q p hp).2
      · rw [(hfr2 p (fun c => hp ((hmem p).1 c))).2, (hfr p hp).2]
    · intro p; rw [hv2, hv]
    · intro p; rw [hl2, hl]
  exact ⟨k, hk, by rw [hk2, e]⟩

/-- C20 witness: swapping the queue a, b, c twice. -/
theorem C20_swap_involution_witness :
    ∃ k, q_swap 4 (queue_of ["a", "b", "c"]) 1 = .ok k ∧
      q_swap 4 k 1 = .ok (queue_of ["a", "b", "c"]) :=
  C20_swap_involution (queue_of ["a", "b", "c"]) 1 [2, 3, 4] 4 (by decide) (by decide)

/-- C18 (the code fails the claim): on every well-formed queue whose last
two elements carry equal payloads (so the last run has two or more elements),
sorted or not, `q_delete_dup` does not return, whatever the scratch buffer
holds (or if its allocation failed) and however much fuel the traversal gets:
it ends in a fault that is not lack of fuel, where the claim has it return true
with the final run removed. -/
theorem C18_delete_dup_final_run_faults (h : Heap) (head : Ptr) (pre : List Ptr) (a b : Ptr)
    (fuel : Nat) (str0 : Option String) (q : IsQueue h head (pre ++ [a, b]))
    (hab : h.value a = h.value b) (hfuel : (pre ++ [a, b]).length < fuel) :
    ∃ f, q_delete_dup fuel h head str0 = .error f ∧ f ≠ Fault.fuel := by
  cases str0 with
  | none =>
    obtain ⟨g, rfl⟩ : ∃ g, fuel = g + 1 := ⟨fuel - 1, by omega⟩
    obtain ⟨y, r, hr⟩ : ∃ y r, pre ++ [a, b] = y :: r := by
      cases pre with
      | nil => exact ⟨a, [b], rfl⟩
      | cons y r => exact ⟨y, r ++ [a, b], rfl⟩
    rw [hr] at q
    exact ⟨Fault.nullDeref, q_delete_dup_no_buffer q g, by decide⟩
  | some s0 =>
    have hp : payload h a = payload h b := by
      unfold payload; rw [hab]
    exact (q_delete_dup_sim q s0 hfuel).1 (dedup_run_last_pair (payload h) hp pre [] s0)

/-- C18 witness: the sorted queue 1, 2, 2 with an empty scratch buffer. -/
theorem C18_delete_dup_final_run_faults_witness :
    ∃ f, q_delete_dup 4 (queue_of ["1", "2", "2"]) 1 (some "") = .error f ∧ f ≠ Fault.fuel :=
  C18_delete_dup_final_run_faults (queue_of ["1", "2", "2"]) 1 [2] 3 4 4 (some "") (by decide)
    (by decide) (by decide)

/-- C19 (the code fails the claim): the outcome of `q_delete_dup` depends on
what the scratch buffer holds at the start.  On a well-formed queue of
pairwise distinct payloads that fit the buffer, a buffer that differs from
the first payload makes the call return true with the heap untouched, while
a buffer equal to the first payload makes it delete the first element and
then fault (it treats the header as an element). -/
theorem C19_delete_dup_buffer_matters (h : Heap) (head x : Ptr) (xs : List Ptr) (fuel : Nat)
    (q : IsQueue h head (x :: xs)) (hd : ((x :: xs).map (payload h)).Nodup)
    (hlen : ∀ y ∈ x :: xs, (payload h y).length < 1024) (hfuel : (x :: xs).length < fuel) :
    (∀ s0, s0 ≠ payload h x → q_delete_dup fuel h head (some s0) = .ok (h, true)) ∧
      ∃ f, q_delete_dup fuel h head (some (payload h x)) = .error f ∧ f ≠ Fault.fuel := by
  constructor
  · intro s0 hs0
    have hc : List.Chain (fun a b => a ≠ b) s0 ((x :: xs).map (payload h)) := by
      rw [List.map_cons, List.chain_cons]
      refine ⟨hs0, ?_⟩
      have := List.Pairwise.chain' hd
      rw [List.map_cons] at this
      exact this
    have hloop := q_delete_dup_loop_distinct (payload h) (x :: xs) [] s0 fuel
      (by simpa using q) q.value_payload hc hlen hfuel
    rw [← Linked.next_first q.2.2.2.1] at hloop
    simp [q_delete_dup, q.1, hloop]
  · exact (q_delete_dup_sim q (payload h x) hfuel).1 (dedup_run_first_eq (payload h) xs x)

/-- C19 witness: the queue 1, 2, 3 with the scratch buffer holding the empty
string and holding 1. -/
theorem C19_delete_dup_buffer_matters_witness :
    q_delete_dup 4 (queue_of ["1", "2", "3"]) 1 (some "") =
        .ok (queue_of ["1", "2", "3"], true) ∧
      ∃ f, q_delete_dup 4 (queue_of ["1", "2", "3"]) 1 (some "1") = .error f ∧
        f ≠ Fault.fuel := by
  have hw := C19_delete_dup_buffer_matters (queue_of ["1", "2", "3"]) 1 2 [3, 4] 4 (by decide)
    (by decide) (by decide) (by decide)
  exact ⟨hw.1 "" (by decide), hw.2⟩

end LabQueue
